import Mathlib

/-!
Verification of the ddi-toolkit repository core against its specification.

The development shallowly embeds, in Lean, the algorithmic core of the
repository:

* `topological_sort_resources` from `lab/ddicdi_to_sempyro.py` (the schema
  compiler's dependency-ordering step, Kahn's algorithm);
* `range_to_python_type`, `generate_field` and `escape_description` from
  `lab/ddicdi_to_sempyro.py` (field emission);
* `get_resource_attribute_cardinality` and `get_resource_domain_attributes`
  from `src/dartfx/ddi/ddicdi_specification.py` (ontology-model queries),
  over an abstract ontology-model record;
* `prefixed_uri` / `full_uri` from the same file (namespace handling),
  with Python strings modelled as `List Char`;
* the `SemPyRODeserializer` of
  `src/dartfx/ddi/ddicdi/sempyro_deserializer.py` (registry-driven
  deserializer), with RDF graphs as triple lists, Pydantic instances as a
  recursive value type, and Python's recursion limit as an explicit fuel
  parameter.

Python dicts are modelled as insertion-ordered association lists whose keys
are unique; Python exceptions as `Except`; Python's `None` as `Option`.
-/

set_option linter.unnecessarySeqFocus false

namespace DdiToolkit

abbrev Uri := String

/-! ## Topological sort (`lab/ddicdi_to_sempyro.py`, `topological_sort_resources`)

`resources` is a Python list of resource URIs; `subclass_of` a Python dict
child → parent, modelled as an association list in insertion order (a dict
never holds two entries with the same key, which enters the theorems as a
`Nodup` hypothesis on the key column). -/

/-- The pairs of `subclass_of` whose child and parent are both in the
resource set (the `if child in resource_set and parent in resource_set`
guard of the adjacency-building loop). -/
def restricted_pairs (resources : List Uri) (subclass_of : List (Uri × Uri)) :
    List (Uri × Uri) :=
  subclass_of.filter (fun cp => cp.1 ∈ resources ∧ cp.2 ∈ resources)

/-- `children[parent]` after the adjacency-building loop: the restricted
children of `parent` in `subclass_of` iteration order. -/
def children_of (rp : List (Uri × Uri)) (parent : Uri) : List Uri :=
  (rp.filter (fun cp => cp.2 = parent)).map Prod.fst

/-- `in_degree[child]` after the adjacency-building loop (the number of
restricted pairs with this child; Python stores it as an `int`). -/
def in_degree0 (rp : List (Uri × Uri)) (child : Uri) : Int :=
  ((rp.filter (fun cp => cp.1 = child)).length : Int)

/-- The inner `for child in children[current]` loop body: decrement each
child's in-degree and enqueue it when the in-degree reaches zero. -/
def process_children (cs : List Uri) (indeg : Uri → Int) (queue : List Uri) :
    (Uri → Int) × List Uri :=
  match cs with
  | [] => (indeg, queue)
  | c :: rest =>
      process_children rest (fun x => if x = c then indeg c - 1 else indeg x)
        (if indeg c - 1 = 0 then queue ++ [c] else queue)

/-- The `while queue:` loop of Kahn's algorithm.  The loop consumes one queue
element per iteration; `fuel` bounds the number of iterations.  Any fuel of at
least `resources.length + subclass_of.length` is enough: every iteration pops
an element that was pushed either by the initial seeding (at most one push per
resource) or by a decrement-to-zero event (at most one per subclass pair), so
with such fuel the zero-fuel branch is reached only with an empty queue and
the function agrees with the unbounded Python loop. -/
def kahn_loop (children : Uri → List Uri) :
    Nat → List Uri → (Uri → Int) → List Uri → List Uri
  | 0, _, _, result => result
  | fuel + 1, queue, indeg, result =>
      match queue with
      | [] => result
      | current :: rest =>
          let step := process_children (children current) indeg rest
          kahn_loop children fuel step.2 step.1 (result ++ [current])

/-- The portion of the output emitted by Kahn's algorithm proper (the value
of `result` when the `while` loop exits). -/
def kahn_emitted (resources : List Uri) (subclass_of : List (Uri × Uri)) :
    List Uri :=
  let rp := restricted_pairs resources subclass_of
  let indeg := in_degree0 rp
  kahn_loop (children_of rp) (resources.length + subclass_of.length)
    (resources.filter (fun r => indeg r = 0)) indeg []

/-- `topological_sort_resources(resources, subclass_of)`: Kahn's algorithm
with zero-in-degree seeds in input order, followed by the cycle policy that
appends every unvisited resource in original relative order.  (The
verification pass of the Python function only prints diagnostics and does not
change the returned list.) -/
def topological_sort_resources (resources : List Uri)
    (subclass_of : List (Uri × Uri)) : List Uri :=
  let result := kahn_emitted resources subclass_of
  if result.length ≠ resources.length then
    result ++ resources.filter (fun r => r ∉ result)
  else
    result

/-- Iterating the (functional) restricted subclass-of relation upwards:
`iter_parent rp n x` is the `n`-th ancestor of `x` along `rp`, when every
intermediate node has a parent entry. -/
def iter_parent (rp : List (Uri × Uri)) : Nat → Uri → Option Uri
  | 0, x => some x
  | n + 1, x =>
      match rp.lookup x with
      | some p => iter_parent rp n p
      | none => none

/-- Acyclicity of the subclass-of relation restricted to the resource set: no
resource is its own strict ancestor.  (Chasing parents inside a set of
`R.length` nodes revisits a node within `R.length` steps, so bounding the
chain length keeps the property decidable without losing strength.) -/
def acyclic_restriction (resources : List Uri)
    (subclass_of : List (Uri × Uri)) : Prop :=
  ∀ x ∈ resources, ∀ n ≤ resources.length, 0 < n →
    iter_parent (restricted_pairs resources subclass_of) n x ≠ some x

instance acyclic_restriction_decidable (resources : List Uri)
    (subclass_of : List (Uri × Uri)) :
    Decidable (acyclic_restriction resources subclass_of) := by
  unfold acyclic_restriction
  infer_instance

/-! ### Properties of the restricted relation -/

theorem mem_restricted_pairs {R : List Uri} {S : List (Uri × Uri)}
    {cp : Uri × Uri} (h : cp ∈ restricted_pairs R S) :
    cp ∈ S ∧ cp.1 ∈ R ∧ cp.2 ∈ R := by
  simpa [restricted_pairs, List.mem_filter, and_assoc] using h

theorem restricted_pairs_keys_nodup {R : List Uri} {S : List (Uri × Uri)}
    (hS : (S.map Prod.fst).Nodup) :
    ((restricted_pairs R S).map Prod.fst).Nodup :=
  hS.sublist (List.Sublist.map _ (List.filter_sublist S))

theorem keys_nodup_functional {rp : List (Uri × Uri)}
    (hk : (rp.map Prod.fst).Nodup) {c p₁ p₂ : Uri}
    (h₁ : (c, p₁) ∈ rp) (h₂ : (c, p₂) ∈ rp) : p₁ = p₂ := by
  induction rp with
  | nil => cases h₁
  | cons hd tl ih =>
      obtain ⟨a, b⟩ := hd
      simp only [List.map_cons, List.nodup_cons] at hk
      rcases List.mem_cons.1 h₁ with hh₁ | hh₁
      · rcases List.mem_cons.1 h₂ with hh₂ | hh₂
        · obtain ⟨rfl, rfl⟩ := Prod.mk.injEq _ _ _ _ ▸ hh₁
          exact ((Prod.mk.injEq _ _ _ _ ▸ hh₂).2).symm
        · obtain ⟨rfl, rfl⟩ := Prod.mk.injEq _ _ _ _ ▸ hh₁
          exact absurd (List.mem_map_of_mem Prod.fst hh₂) hk.1
      · rcases List.mem_cons.1 h₂ with hh₂ | hh₂
        · obtain ⟨rfl, rfl⟩ := Prod.mk.injEq _ _ _ _ ▸ hh₂
          exact absurd (List.mem_map_of_mem Prod.fst hh₁) hk.1
        · exact ih hk.2 hh₁ hh₂

theorem lookup_eq_of_mem {rp : List (Uri × Uri)}
    (hk : (rp.map Prod.fst).Nodup) {c p : Uri} (h : (c, p) ∈ rp) :
    rp.lookup c = some p := by
  induction rp with
  | nil => cases h
  | cons hd tl ih =>
      obtain ⟨a, b⟩ := hd
      simp only [List.map_cons, List.nodup_cons] at hk
      rcases List.mem_cons.1 h with hh | hh
      · obtain ⟨rfl, rfl⟩ := Prod.mk.injEq _ _ _ _ ▸ hh
        simp [List.lookup]
      · have hne : (c == a) = false := by
          apply beq_eq_false_iff_ne.mpr
          rintro rfl
          exact hk.1 (List.mem_map_of_mem Prod.fst hh)
        rw [List.lookup, hne]
        exact ih hk.2 hh

theorem mem_children_of {rp : List (Uri × Uri)} {c p : Uri} :
    c ∈ children_of rp p ↔ (c, p) ∈ rp := by
  simp only [children_of, List.mem_map, List.mem_filter, decide_eq_true_eq]
  constructor
  · rintro ⟨⟨c', p'⟩, ⟨hm, rfl⟩, rfl⟩; exact hm
  · intro hm; exact ⟨(c, p), ⟨hm, rfl⟩, rfl⟩

theorem children_of_nodup {rp : List (Uri × Uri)}
    (hk : (rp.map Prod.fst).Nodup) (p : Uri) : (children_of rp p).Nodup :=
  hk.sublist (List.Sublist.map _ (List.filter_sublist rp))

theorem filter_key_eq_nil {rp : List (Uri × Uri)} {c : Uri}
    (h : ∀ p, (c, p) ∉ rp) : rp.filter (fun cp => cp.1 = c) = [] := by
  rw [List.filter_eq_nil_iff]
  rintro ⟨c', p'⟩ hm hc
  simp only [decide_eq_true_eq] at hc
  exact h p' (hc ▸ hm)

theorem in_degree0_of_not_mem {rp : List (Uri × Uri)} {c : Uri}
    (h : ∀ p, (c, p) ∉ rp) : in_degree0 rp c = 0 := by
  simp [in_degree0, filter_key_eq_nil h]

theorem filter_key_eq_singleton {rp : List (Uri × Uri)}
    (hk : (rp.map Prod.fst).Nodup) {c p : Uri} (h : (c, p) ∈ rp) :
    rp.filter (fun cp => cp.1 = c) = [(c, p)] := by
  induction rp with
  | nil => cases h
  | cons hd tl ih =>
      obtain ⟨a, b⟩ := hd
      simp only [List.map_cons, List.nodup_cons] at hk
      rcases List.mem_cons.1 h with h | h
      · obtain ⟨rfl, rfl⟩ := Prod.mk.injEq _ _ _ _ ▸ h
        have : tl.filter (fun cp => cp.1 = c) = [] := by
          apply filter_key_eq_nil
          intro p' hp'
          exact hk.1 (List.mem_map_of_mem Prod.fst hp')
        simp [List.filter_cons, this]
      · have hne : a ≠ c := by
          rintro rfl
          exact hk.1 (List.mem_map_of_mem Prod.fst h)
        simpa [List.filter_cons, hne] using ih hk.2 h

theorem in_degree0_of_mem {rp : List (Uri × Uri)}
    (hk : (rp.map Prod.fst).Nodup) {c p : Uri} (h : (c, p) ∈ rp) :
    in_degree0 rp c = 1 := by
  simp [in_degree0, filter_key_eq_singleton hk h]

/-! ### The inner decrement loop -/

theorem process_children_fst {cs : List Uri} (hcs : cs.Nodup) :
    ∀ (indeg : Uri → Int) (queue : List Uri) (x : Uri),
      (process_children cs indeg queue).1 x =
        if x ∈ cs then indeg x - 1 else indeg x := by
  induction cs with
  | nil => intro indeg queue x; simp [process_children]
  | cons c rest ih =>
      intro indeg queue x
      simp only [List.nodup_cons] at hcs
      rw [process_children, ih hcs.2]
      by_cases hx : x ∈ rest
      · have hxc : x ≠ c := by rintro rfl; exact hcs.1 hx
        simp [hx, hxc, List.mem_cons]
      · by_cases hxc : x = c
        · subst hxc
          simp [hx]
        · simp [hx, hxc]

theorem process_children_snd {cs : List Uri} (hcs : cs.Nodup) :
    ∀ (indeg : Uri → Int) (queue : List Uri),
      (process_children cs indeg queue).2 =
        queue ++ cs.filter (fun c => indeg c = 1) := by
  induction cs with
  | nil => intro indeg queue; simp [process_children]
  | cons c rest ih =>
      intro indeg queue
      simp only [List.nodup_cons] at hcs
      rw [process_children, ih hcs.2]
      have hfil : rest.filter
            (fun c' => (if c' = c then indeg c - 1 else indeg c') = 1) =
          rest.filter (fun c' => indeg c' = 1) := by
        apply List.filter_congr
        intro x hx
        have hxc : x ≠ c := by rintro rfl; exact hcs.1 hx
        simp [hxc]
      rw [hfil]
      by_cases h1 : indeg c = 1
      · have : indeg c - 1 = 0 := by omega
        simp [List.filter_cons, this, h1]
      · have : ¬ indeg c - 1 = 0 := by omega
        simp [List.filter_cons, this, h1]

/-! ### The main loop invariant -/

/-- Postcondition of the Kahn loop relative to the restricted relation `rp`
and the resource set `R`: the emitted list is duplicate-free, drawn from `R`,
extends the accumulated `result`, puts every emitted parent strictly before
its emitted children, and every resource it misses has a parent that it also
misses. -/
def kahn_post (rp : List (Uri × Uri)) (R result out : List Uri) : Prop :=
  out.Nodup ∧ (∀ x ∈ out, x ∈ R) ∧ (∀ x ∈ result, x ∈ out) ∧
    (∀ c p, (c, p) ∈ rp → c ∈ out →
      p ∈ out ∧ out.indexOf p < out.indexOf c) ∧
    (∀ x ∈ R, x ∉ out → ∃ p, (x, p) ∈ rp ∧ p ∉ out)

theorem kahn_exit {rp : List (Uri × Uri)} {R : List Uri} {indeg : Uri → Int}
    {result : List Uri}
    (hA : result.Nodup)
    (hD1 : ∀ c p, (c, p) ∈ rp → indeg c = 1 - (if p ∈ result then 1 else 0))
    (hD2 : ∀ c, (∀ p, (c, p) ∉ rp) → indeg c = 0)
    (hEr : ∀ x ∈ result, x ∈ R)
    (hF : ∀ x ∈ R, indeg x = 0 → x ∈ result)
    (hG : ∀ c p, (c, p) ∈ rp → c ∈ result →
      p ∈ result ∧ result.indexOf p < result.indexOf c) :
    kahn_post rp R result result := by
  refine ⟨hA, hEr, fun x hx => hx, hG, ?_⟩
  intro x hxR hxout
  by_cases hkey : ∀ p, (x, p) ∉ rp
  · exact absurd (hF x hxR (hD2 x hkey)) hxout
  · push_neg at hkey
    obtain ⟨p, hp⟩ := hkey
    refine ⟨p, hp, ?_⟩
    intro hpres
    have h1 := hD1 x p hp
    rw [if_pos hpres] at h1
    exact hxout (hF x hxR (by omega))

theorem kahn_loop_spec (rp : List (Uri × Uri)) (R : List Uri)
    (hk : (rp.map Prod.fst).Nodup)
    (hsub : ∀ cp ∈ rp, cp.1 ∈ R ∧ cp.2 ∈ R) :
    ∀ (fuel : Nat) (queue result : List Uri) (indeg : Uri → Int),
      (result ++ queue).Nodup →
      (∀ x ∈ queue, indeg x = 0) →
      (∀ x ∈ result, indeg x ≤ 0) →
      (∀ c p, (c, p) ∈ rp → indeg c = 1 - (if p ∈ result then 1 else 0)) →
      (∀ c, (∀ p, (c, p) ∉ rp) → indeg c = 0) →
      (∀ x ∈ queue, x ∈ R) →
      (∀ x ∈ result, x ∈ R) →
      (∀ x ∈ R, indeg x = 0 → x ∈ result ∨ x ∈ queue) →
      (∀ c p, (c, p) ∈ rp → c ∈ result →
        p ∈ result ∧ result.indexOf p < result.indexOf c) →
      queue.length + ((rp.map Prod.fst).toFinset.filter
          (fun c => 1 ≤ indeg c)).card ≤ fuel →
      kahn_post rp R result (kahn_loop (children_of rp) fuel queue indeg result) := by
  intro fuel
  induction fuel with
  | zero =>
      intro queue result indeg hA hB hC hD1 hD2 hEq hEr hF hG hH
      have hq : queue = [] := by
        cases queue with
        | nil => rfl
        | cons a t => simp [List.length_cons] at hH
      subst hq
      rw [kahn_loop]
      simp only [List.append_nil] at hA
      exact kahn_exit hA hD1 hD2 hEr
        (fun x hx h0 => (hF x hx h0).resolve_right (List.not_mem_nil x)) hG
  | succ fuel ih =>
      intro queue result indeg hA hB hC hD1 hD2 hEq hEr hF hG hH
      cases queue with
      | nil =>
          rw [kahn_loop]
          simp only [List.append_nil] at hA
          exact kahn_exit hA hD1 hD2 hEr
            (fun x hx h0 => (hF x hx h0).resolve_right (List.not_mem_nil x)) hG
      | cons current rest =>
          have hcsnd : (children_of rp current).Nodup := children_of_nodup hk current
          have hpf := process_children_fst hcsnd indeg rest
          have hps := process_children_snd hcsnd indeg rest
          obtain ⟨hresnd, hqnd, hdisj⟩ := List.nodup_append.1 hA
          have hcurrest : current ∉ rest := (List.nodup_cons.1 hqnd).1
          have hrestnd : rest.Nodup := (List.nodup_cons.1 hqnd).2
          have hcurnotres : current ∉ result := fun h => hdisj h (List.mem_cons_self _ _)
          have hcurR : current ∈ R := hEq current (List.mem_cons_self _ _)
          have hcur0 : indeg current = 0 := hB current (List.mem_cons_self _ _)
          set enq := (children_of rp current).filter (fun c => indeg c = 1) with henq_def
          have henq : ∀ e ∈ enq, (e, current) ∈ rp ∧ indeg e = 1 := by
            intro e he
            have h := List.mem_filter.1 he
            exact ⟨mem_children_of.1 h.1, by simpa using h.2⟩
          have henqnd : enq.Nodup := hcsnd.filter _
          have hcurcs : current ∉ children_of rp current := by
            intro hc
            have h1 := hD1 current current (mem_children_of.1 hc)
            rw [if_neg hcurnotres] at h1
            omega
          -- the re-established invariants
          have hA' : ((result ++ [current]) ++ (rest ++ enq)).Nodup := by
            have hXeq : (result ++ [current]) ++ (rest ++ enq) =
                (result ++ current :: rest) ++ enq := by simp
            rw [hXeq]
            refine List.Nodup.append hA henqnd ?_
            intro a ha hae
            obtain ⟨hpair, h1⟩ := henq a hae
            rcases List.mem_append.1 ha with ha | ha
            · have := hC a ha; omega
            · rcases List.mem_cons.1 ha with rfl | ha
              · omega
              · have := hB a (List.mem_cons_of_mem _ ha); omega
          have hB' : ∀ x ∈ rest ++ enq,
              (process_children (children_of rp current) indeg rest).1 x = 0 := by
            intro x hx
            rw [hpf x]
            rcases List.mem_append.1 hx with hx | hx
            · have hx0 : indeg x = 0 := hB x (List.mem_cons_of_mem _ hx)
              have hxcs : x ∉ children_of rp current := by
                intro hxc
                have h1 := hD1 x current (mem_children_of.1 hxc)
                rw [if_neg hcurnotres] at h1
                omega
              rw [if_neg hxcs]; exact hx0
            · obtain ⟨hpair, h1⟩ := henq x hx
              rw [if_pos (mem_children_of.2 hpair)]
              omega
          have hC' : ∀ x ∈ result ++ [current],
              (process_children (children_of rp current) indeg rest).1 x ≤ 0 := by
            intro x hx
            rw [hpf x]
            rcases List.mem_append.1 hx with hx | hx
            · have := hC x hx
              by_cases hxcs : x ∈ children_of rp current
              · rw [if_pos hxcs]; omega
              · rw [if_neg hxcs]; omega
            · rcases List.mem_singleton.1 hx with rfl
              rw [if_neg hcurcs]; omega
          have hD1' : ∀ c p, (c, p) ∈ rp →
              (process_children (children_of rp current) indeg rest).1 c =
                1 - (if p ∈ result ++ [current] then 1 else 0) := by
            intro c p hcp
            rw [hpf c]
            by_cases hpc : p = current
            · subst hpc
              rw [if_pos (mem_children_of.2 hcp)]
              have h1 := hD1 c p hcp
              rw [if_neg hcurnotres] at h1
              rw [if_pos (List.mem_append.2 (Or.inr (List.mem_singleton.2 rfl)))]
              omega
            · have hccs : c ∉ children_of rp current := by
                intro hc
                exact hpc (keys_nodup_functional hk hcp (mem_children_of.1 hc))
              rw [if_neg hccs]
              have h1 := hD1 c p hcp
              have hiff : (p ∈ result ++ [current]) ↔ p ∈ result := by
                simp [hpc]
              by_cases hp : p ∈ result
              · rw [if_pos hp] at h1; rw [if_pos (hiff.2 hp)]; exact h1
              · rw [if_neg hp] at h1
                rw [if_neg (fun hm => hp (hiff.1 hm))]
                exact h1
          have hD2' : ∀ c, (∀ p, (c, p) ∉ rp) →
              (process_children (children_of rp current) indeg rest).1 c = 0 := by
            intro c hc
            rw [hpf c]
            rw [if_neg (fun hcc => hc current (mem_children_of.1 hcc))]
            exact hD2 c hc
          have hEq' : ∀ x ∈ rest ++ enq, x ∈ R := by
            intro x hx
            rcases List.mem_append.1 hx with hx | hx
            · exact hEq x (List.mem_cons_of_mem _ hx)
            · exact (hsub _ (henq x hx).1).1
          have hEr' : ∀ x ∈ result ++ [current], x ∈ R := by
            intro x hx
            rcases List.mem_append.1 hx with hx | hx
            · exact hEr x hx
            · rcases List.mem_singleton.1 hx with rfl; exact hcurR
          have hF' : ∀ x ∈ R,
              (process_children (children_of rp current) indeg rest).1 x = 0 →
              x ∈ result ++ [current] ∨ x ∈ rest ++ enq := by
            intro x hxR hx0
            rw [hpf x] at hx0
            by_cases hxcs : x ∈ children_of rp current
            · rw [if_pos hxcs] at hx0
              refine Or.inr (List.mem_append.2 (Or.inr ?_))
              refine List.mem_filter.2 ⟨hxcs, ?_⟩
              simp only [decide_eq_true_eq]
              omega
            · rw [if_neg hxcs] at hx0
              rcases hF x hxR hx0 with hx | hx
              · exact Or.inl (List.mem_append.2 (Or.inl hx))
              · rcases List.mem_cons.1 hx with rfl | hx
                · exact Or.inl (List.mem_append.2 (Or.inr (List.mem_singleton.2 rfl)))
                · exact Or.inr (List.mem_append.2 (Or.inl hx))
          have hG' : ∀ c p, (c, p) ∈ rp → c ∈ result ++ [current] →
              p ∈ result ++ [current] ∧
                (result ++ [current]).indexOf p < (result ++ [current]).indexOf c := by
            intro c p hcp hc
            rcases List.mem_append.1 hc with hc | hc
            · obtain ⟨hp, hidx⟩ := hG c p hcp hc
              refine ⟨List.mem_append.2 (Or.inl hp), ?_⟩
              rw [List.indexOf_append_of_mem hp, List.indexOf_append_of_mem hc]
              exact hidx
            · rcases List.mem_singleton.1 hc with rfl
              have h1 := hD1 c p hcp
              rw [hcur0] at h1
              have hp : p ∈ result := by
                by_cases hp : p ∈ result
                · exact hp
                · rw [if_neg hp] at h1; omega
              refine ⟨List.mem_append.2 (Or.inl hp), ?_⟩
              rw [List.indexOf_append_of_mem hp,
                List.indexOf_append_of_not_mem hcurnotres]
              have hlt : result.indexOf p < result.length :=
                List.indexOf_lt_length.2 hp
              simp only [List.indexOf_cons_self]
              omega
          have hH' : (rest ++ enq).length +
              ((rp.map Prod.fst).toFinset.filter (fun c =>
                1 ≤ (process_children (children_of rp current) indeg rest).1 c)).card
                ≤ fuel := by
            set K := (rp.map Prod.fst).toFinset with hK_def
            set T := enq.toFinset with hT_def
            have hTcard : T.card = enq.length := List.toFinset_card_of_nodup henqnd
            have hfe : K.filter (fun c =>
                1 ≤ (process_children (children_of rp current) indeg rest).1 c) =
                K.filter (fun c =>
                  1 ≤ if c ∈ children_of rp current then indeg c - 1 else indeg c) :=
              Finset.filter_congr (fun x _ => by rw [hpf x])
            have hsubset : K.filter (fun c =>
                1 ≤ if c ∈ children_of rp current then indeg c - 1 else indeg c) ∪ T ⊆
                K.filter (fun c => 1 ≤ indeg c) := by
              intro x hx
              rcases Finset.mem_union.1 hx with hx | hx
              · obtain ⟨hxK, hx1⟩ := Finset.mem_filter.1 hx
                refine Finset.mem_filter.2 ⟨hxK, ?_⟩
                by_cases hxcs : x ∈ children_of rp current
                · rw [if_pos hxcs] at hx1; omega
                · rw [if_neg hxcs] at hx1; omega
              · have hxe := List.mem_toFinset.1 hx
                obtain ⟨hpair, h1⟩ := henq x hxe
                refine Finset.mem_filter.2 ⟨?_, by omega⟩
                exact List.mem_toFinset.2 (List.mem_map_of_mem Prod.fst hpair)
            have hdisjT : Disjoint (K.filter (fun c =>
                1 ≤ if c ∈ children_of rp current then indeg c - 1 else indeg c)) T := by
              rw [Finset.disjoint_left]
              intro x hx hxT
              obtain ⟨hxK, hx1⟩ := Finset.mem_filter.1 hx
              obtain ⟨hpair, h1⟩ := henq x (List.mem_toFinset.1 hxT)
              rw [if_pos (mem_children_of.2 hpair)] at hx1
              omega
            have hcards := Finset.card_le_card hsubset
            rw [Finset.card_union_of_disjoint hdisjT, hTcard] at hcards
            rw [hfe]
            have hHlen : rest.length + 1 +
                (K.filter (fun c => 1 ≤ indeg c)).card ≤ fuel + 1 := by
              simpa [List.length_cons] using hH
            simp only [List.length_append]
            omega
          have post := ih (rest ++ enq)
            (result ++ [current])
            (process_children (children_of rp current) indeg rest).1
            hA' hB' hC' hD1' hD2' hEq' hEr' hF' hG' hH'
          have hunfold : kahn_loop (children_of rp) (fuel + 1)
              (current :: rest) indeg result =
              kahn_loop (children_of rp) fuel (rest ++ enq)
                (process_children (children_of rp current) indeg rest).1
                (result ++ [current]) := by
            rw [kahn_loop, hps]
          rw [hunfold]
          obtain ⟨p1, p2, p3, p4, p5⟩ := post
          exact ⟨p1, p2, fun x hx => p3 x (List.mem_append.2 (Or.inl hx)), p4, p5⟩

theorem kahn_emitted_spec (R : List Uri) (S : List (Uri × Uri))
    (hR : R.Nodup) (hS : (S.map Prod.fst).Nodup) :
    kahn_post (restricted_pairs R S) R [] (kahn_emitted R S) := by
  have hk := restricted_pairs_keys_nodup (R := R) hS
  have hsub : ∀ cp ∈ restricted_pairs R S, cp.1 ∈ R ∧ cp.2 ∈ R :=
    fun cp h => (mem_restricted_pairs h).2
  have h := kahn_loop_spec (restricted_pairs R S) R hk hsub
    (R.length + S.length)
    (R.filter (fun r => in_degree0 (restricted_pairs R S) r = 0)) []
    (in_degree0 (restricted_pairs R S))
    (by simpa using hR.filter _)
    (by intro x hx; simpa using (List.mem_filter.1 hx).2)
    (by simp)
    (by
      intro c p hcp
      rw [in_degree0_of_mem hk hcp]
      simp)
    (fun c hc => in_degree0_of_not_mem hc)
    (fun x hx => List.mem_of_mem_filter hx)
    (by simp)
    (by
      intro x hxR h0
      exact Or.inr (List.mem_filter.2 ⟨hxR, by simpa using h0⟩))
    (by simp)
    (by
      have h1 : (R.filter
          (fun r => in_degree0 (restricted_pairs R S) r = 0)).length ≤ R.length :=
        List.length_filter_le _ _
      have h2 : (((restricted_pairs R S).map Prod.fst).toFinset.filter
          (fun c => 1 ≤ in_degree0 (restricted_pairs R S) c)).card ≤ S.length := by
        calc (((restricted_pairs R S).map Prod.fst).toFinset.filter
              (fun c => 1 ≤ in_degree0 (restricted_pairs R S) c)).card
            ≤ ((restricted_pairs R S).map Prod.fst).toFinset.card :=
              Finset.card_filter_le _ _
          _ ≤ ((restricted_pairs R S).map Prod.fst).length :=
              List.toFinset_card_le _
          _ = (restricted_pairs R S).length := List.length_map _ _
          _ ≤ S.length := List.length_filter_le _ _
      omega)
  simpa [kahn_emitted] using h

theorem iter_parent_succ (rp : List (Uri × Uri)) :
    ∀ (n : Nat) (x : Uri),
      iter_parent rp (n + 1) x =
        (iter_parent rp n x).bind (fun y => rp.lookup y) := by
  intro n
  induction n with
  | zero =>
      intro x
      cases hl : rp.lookup x <;> simp [iter_parent, hl]
  | succ n ihn =>
      intro x
      cases hl : rp.lookup x
      · simp [iter_parent, hl]
      · simp only [iter_parent, hl]
        exact ihn _

theorem iter_parent_add (rp : List (Uri × Uri)) :
    ∀ (b a : Nat) (x : Uri),
      iter_parent rp (a + b) x =
        (iter_parent rp a x).bind (fun y => iter_parent rp b y) := by
  intro b
  induction b with
  | zero =>
      intro a x
      cases h : iter_parent rp a x <;> simp [iter_parent, h]
  | succ b ihb =>
      intro a x
      have h1 : a + (b + 1) = (a + b) + 1 := by omega
      rw [h1, iter_parent_succ, ihb]
      cases h : iter_parent rp a x
      · simp
      · simp [iter_parent_succ]

theorem kahn_emitted_complete (R : List Uri) (S : List (Uri × Uri))
    (hR : R.Nodup) (hS : (S.map Prod.fst).Nodup)
    (hacyc : acyclic_restriction R S) :
    ∀ x ∈ R, x ∈ kahn_emitted R S := by
  intro x0 hx0R
  by_contra hx0out
  have hk := restricted_pairs_keys_nodup (R := R) hS
  have hsub : ∀ cp ∈ restricted_pairs R S, cp.1 ∈ R ∧ cp.2 ∈ R :=
    fun cp h => (mem_restricted_pairs h).2
  obtain ⟨_, _, _, _, hstep⟩ := kahn_emitted_spec R S hR hS
  have hiter : ∀ n : Nat, ∃ y : Uri,
      iter_parent (restricted_pairs R S) n x0 = some y ∧ y ∈ R ∧
        y ∉ kahn_emitted R S := by
    intro n
    induction n with
    | zero => exact ⟨x0, rfl, hx0R, hx0out⟩
    | succ n ihn =>
        obtain ⟨y, hy, hyR, hyout⟩ := ihn
        obtain ⟨p, hp, hpout⟩ := hstep y hyR hyout
        refine ⟨p, ?_, (hsub _ hp).2, hpout⟩
        rw [iter_parent_succ, hy]
        simpa using lookup_eq_of_mem hk hp
  have key : ∀ i j : Nat, i < j → j ≤ R.length →
      (iter_parent (restricted_pairs R S) i x0).getD "" =
        (iter_parent (restricted_pairs R S) j x0).getD "" → False := by
    intro i j hij hjle heq
    obtain ⟨yi, hyi, hyiR, _⟩ := hiter i
    obtain ⟨yj, hyj, _, _⟩ := hiter j
    rw [hyi, hyj] at heq
    simp only [Option.getD_some] at heq
    have hcomp : iter_parent (restricted_pairs R S) j x0 =
        (iter_parent (restricted_pairs R S) i x0).bind
          (fun y => iter_parent (restricted_pairs R S) (j - i) y) := by
      rw [← iter_parent_add]
      congr 1
      omega
    rw [hyi, hyj] at hcomp
    simp only [Option.some_bind] at hcomp
    subst heq
    exact hacyc yi hyiR (j - i) (by omega) (by omega) (by rw [← hcomp])
  have hmaps : ∀ i : Fin (R.length + 1), i ∈ (Finset.univ : Finset (Fin (R.length + 1))) →
      (iter_parent (restricted_pairs R S) i.val x0).getD "" ∈ R.toFinset := by
    intro i _
    obtain ⟨y, hy, hyR, _⟩ := hiter i.val
    rw [hy]
    simpa using hyR
  have hcard : R.toFinset.card <
      (Finset.univ : Finset (Fin (R.length + 1))).card := by
    have := List.toFinset_card_le (l := R)
    simp only [Finset.card_univ, Fintype.card_fin]
    omega
  obtain ⟨i, _, j, _, hij, heq⟩ :=
    Finset.exists_ne_map_eq_of_card_lt_of_maps_to hcard hmaps
  have hij' : i.val ≠ j.val := fun h => hij (Fin.ext h)
  rcases Nat.lt_or_ge i.val j.val with hlt | hge
  · exact key i.val j.val hlt (by omega) heq
  · have hlt : j.val < i.val := by omega
    exact key j.val i.val hlt (by omega) heq.symm

theorem kahn_emitted_perm (R : List Uri) (S : List (Uri × Uri))
    (hR : R.Nodup) (hS : (S.map Prod.fst).Nodup)
    (hacyc : acyclic_restriction R S) : (kahn_emitted R S).Perm R := by
  obtain ⟨hnd, hsubR, _, _, _⟩ := kahn_emitted_spec R S hR hS
  apply List.perm_of_nodup_nodup_toFinset_eq hnd hR
  ext x
  simp only [List.mem_toFinset]
  exact ⟨fun hx => hsubR x hx, fun hx => kahn_emitted_complete R S hR hS hacyc x hx⟩

/-- Claim C1 fails as stated on resource lists with a repeated entry: on the
acyclic input `R = [B, A, B]`, `subclass_of = {B: A}` the function returns
`[A, B]`, which is not `R` in any order (one `B` is dropped). -/
theorem claim_C1_counterexample :
    acyclic_restriction ["B", "A", "B"] [("B", "A")] ∧
    topological_sort_resources ["B", "A", "B"] [("B", "A")] = ["A", "B"] ∧
    ¬ (topological_sort_resources ["B", "A", "B"] [("B", "A")]).Perm
        ["B", "A", "B"] := by
  refine ⟨by decide, by decide, ?_⟩
  intro h
  exact absurd h.length_eq (by decide)

/-- Claim C1 (amended to duplicate-free resource lists): for every
duplicate-free resource list `R` and subclass-of map whose restriction to `R`
is acyclic, `topological_sort_resources` returns `R` in an order in which
every parent's index is strictly below each of its in-set children's indices;
in particular the linear-inheritance scenario A, B (parent A), C (parent B)
compiles to exactly `[A, B, C]`. -/
theorem claim_C1 (R : List Uri) (S : List (Uri × Uri)) (hR : R.Nodup)
    (hS : (S.map Prod.fst).Nodup) (hacyc : acyclic_restriction R S) :
    (topological_sort_resources R S).Perm R ∧
    (∀ c p, (c, p) ∈ restricted_pairs R S →
      (topological_sort_resources R S).indexOf p <
        (topological_sort_resources R S).indexOf c) ∧
    topological_sort_resources ["A", "B", "C"] [("B", "A"), ("C", "B")] =
      ["A", "B", "C"] := by
  have hperm := kahn_emitted_perm R S hR hS hacyc
  obtain ⟨hnd, hsubR, _, horder, _⟩ := kahn_emitted_spec R S hR hS
  have htopo_eq : topological_sort_resources R S = kahn_emitted R S := by
    have hlen := hperm.length_eq
    simp [topological_sort_resources, hlen]
  refine ⟨htopo_eq ▸ hperm, ?_, by decide⟩
  intro c p hcp
  rw [htopo_eq]
  have hcR := (mem_restricted_pairs hcp).2.1
  exact (horder c p hcp (kahn_emitted_complete R S hR hS hacyc c hcR)).2

theorem claim_C1_witness :
    (topological_sort_resources ["A", "B", "C"] [("B", "A"), ("C", "B")]).Perm
      ["A", "B", "C"] :=
  (claim_C1 ["A", "B", "C"] [("B", "A"), ("C", "B")]
    (by decide) (by decide) (by decide)).1

/-- Claim C2: on duplicate-free input, even with cycles in the restricted
relation, the function returns a permutation of `R` — the Kahn-emitted part
followed by every unemitted resource in original relative order. -/
theorem claim_C2 (R : List Uri) (S : List (Uri × Uri)) (hR : R.Nodup)
    (hS : (S.map Prod.fst).Nodup) :
    (topological_sort_resources R S).Perm R ∧
    topological_sort_resources R S =
      kahn_emitted R S ++ R.filter (fun r => r ∉ kahn_emitted R S) := by
  obtain ⟨hnd, hsubR, _, _, _⟩ := kahn_emitted_spec R S hR hS
  have heq : topological_sort_resources R S =
      kahn_emitted R S ++ R.filter (fun r => r ∉ kahn_emitted R S) := by
    by_cases hlen : (kahn_emitted R S).length = R.length
    · have hall : ∀ r ∈ R, r ∈ kahn_emitted R S := by
        have hsubF : (kahn_emitted R S).toFinset ⊆ R.toFinset := fun x hx =>
          List.mem_toFinset.2 (hsubR x (List.mem_toFinset.1 hx))
        have hc1 : (kahn_emitted R S).toFinset.card = (kahn_emitted R S).length :=
          List.toFinset_card_of_nodup hnd
        have hc2 : R.toFinset.card = R.length := List.toFinset_card_of_nodup hR
        have hFeq := Finset.eq_of_subset_of_card_le hsubF (by omega)
        intro r hr
        have hmem : r ∈ R.toFinset := List.mem_toFinset.2 hr
        rw [← hFeq] at hmem
        exact List.mem_toFinset.1 hmem
      have hfil : R.filter (fun r => r ∉ kahn_emitted R S) = [] := by
        rw [List.filter_eq_nil_iff]
        intro a ha
        simp [hall a ha]
      have hmain : topological_sort_resources R S = kahn_emitted R S := by
        simp [topological_sort_resources, hlen]
      rw [hmain, hfil, List.append_nil]
    · simp [topological_sort_resources, hlen]
  refine ⟨?_, heq⟩
  rw [heq]
  have h1 : (kahn_emitted R S).Perm
      (R.filter (fun r => r ∈ kahn_emitted R S)) := by
    apply List.perm_of_nodup_nodup_toFinset_eq hnd (hR.filter _)
    ext x
    simp only [List.mem_toFinset, List.mem_filter, decide_eq_true_eq]
    exact ⟨fun hx => ⟨hsubR x hx, hx⟩, fun hx => hx.2⟩
  have h2 : R.filter (fun r => r ∉ kahn_emitted R S) =
      R.filter (fun x => !(decide (x ∈ kahn_emitted R S))) := by
    apply List.filter_congr
    intro x _
    simp [decide_not]
  rw [h2]
  exact (h1.append_right _).trans
    (List.filter_append_perm (fun r => decide (r ∈ kahn_emitted R S)) R)

theorem claim_C2_witness :
    (topological_sort_resources ["X", "Y", "Z"] [("X", "Y"), ("Y", "X")]).Perm
      ["X", "Y", "Z"] :=
  (claim_C2 ["X", "Y", "Z"] [("X", "Y"), ("Y", "X")] (by decide) (by decide)).1

/-! ## Namespace handling (`ddicdi_specification.py`, `prefixed_uri` / `full_uri`)

These two methods do raw Python-string manipulation (`startswith`, slicing),
so Python strings are modelled as `List Char`; `s.startswith(t)` is
`t.isPrefixOf s` and `s[n:]` is `s.drop n`. -/

/-- Entry `rdf` of the module-level `NAMESPACES` dict. -/
def ns_rdf : List Char × List Char :=
  ("rdf".toList, "http://www.w3.org/1999/02/22-rdf-syntax-ns#".toList)

/-- Entry `rdfs` of the `NAMESPACES` dict. -/
def ns_rdfs : List Char × List Char :=
  ("rdfs".toList, "http://www.w3.org/2000/01/rdf-schema#".toList)

/-- Entry `owl` of the `NAMESPACES` dict. -/
def ns_owl : List Char × List Char :=
  ("owl".toList, "http://www.w3.org/2002/07/owl#".toList)

/-- Entry `xsd` of the `NAMESPACES` dict. -/
def ns_xsd : List Char × List Char :=
  ("xsd".toList, "http://www.w3.org/2001/XMLSchema#".toList)

/-- Entry `dc` of the `NAMESPACES` dict. -/
def ns_dc : List Char × List Char :=
  ("dc".toList, "http://purl.org/dc/elements/1.1/".toList)

/-- Entry `skos` of the `NAMESPACES` dict. -/
def ns_skos : List Char × List Char :=
  ("skos".toList, "http://www.w3.org/2004/02/skos/core#".toList)

/-- Entry `cdi` of the `NAMESPACES` dict. -/
def ns_cdi : List Char × List Char :=
  ("cdi".toList, "http://ddialliance.org/Specification/DDI-CDI/1.0/RDF/".toList)

/-- Entry `ucmis` of the `NAMESPACES` dict. -/
def ns_ucmis : List Char × List Char :=
  ("ucmis".toList, "tag:ddialliance.org,2024:ucmis:".toList)

/-- The module-level `NAMESPACES` dict, in declaration order. -/
def NAMESPACES : List (List Char × List Char) :=
  [ns_rdf, ns_rdfs, ns_owl, ns_xsd, ns_dc, ns_skos, ns_cdi, ns_ucmis]

/-- `prefixed_uri`: for each namespace in dict order, if the current string
starts with the namespace URI, rewrite it to `prefix + ":" + remainder`. -/
def prefixed_uri (uri : List Char) : List Char :=
  NAMESPACES.foldl
    (fun u pn =>
      if pn.2.isPrefixOf u then pn.1 ++ ':' :: u.drop pn.2.length else u)
    uri

/-- `full_uri`: for each namespace in dict order, if the current string starts
with `prefix + ":"`, rewrite it to the namespace URI plus the remainder. -/
def full_uri (uri : List Char) : List Char :=
  NAMESPACES.foldl
    (fun u pn =>
      if (pn.1 ++ [':']).isPrefixOf u then
        pn.2 ++ u.drop (pn.1.length + 1)
      else u)
    uri

theorem isPrefixOf_append_self :
    ∀ (l rest : List Char), l.isPrefixOf (l ++ rest) = true := by
  intro l
  induction l with
  | nil => intro rest; simp [List.isPrefixOf]
  | cons a t ih => intro rest; simp [List.isPrefixOf, ih]

theorem not_isPrefixOf_append (l₁ : List Char) :
    ∀ (l₂ rest : List Char), l₁.isPrefixOf l₂ = false →
      l₂.isPrefixOf l₁ = false → l₁.isPrefixOf (l₂ ++ rest) = false := by
  induction l₁ with
  | nil => intro l₂ rest h₁ _; simp [List.isPrefixOf] at h₁
  | cons a t ih =>
      intro l₂ rest h₁ h₂
      cases l₂ with
      | nil => simp [List.isPrefixOf] at h₂
      | cons b t₂ =>
          simp only [List.cons_append, List.isPrefixOf] at h₁ h₂ ⊢
          by_cases hab : a = b
          · subst hab
            simp only [beq_self_eq_true, Bool.true_and] at h₁ h₂ ⊢
            exact ih t₂ rest h₁ h₂
          · have hf : (a == b) = false := beq_eq_false_iff_ne.mpr hab
            simp [hf]

theorem not_isPrefixOf_consColon (q p rest : List Char)
    (h₁ : q.isPrefixOf (p ++ [':']) = false)
    (h₂ : (p ++ [':']).isPrefixOf q = false) :
    q.isPrefixOf (p ++ ':' :: rest) = false := by
  have h := not_isPrefixOf_append q (p ++ [':']) rest h₁ h₂
  simpa using h

theorem foldl_prefixed_skip :
    ∀ (l : List (List Char × List Char)) (u : List Char),
      (∀ pn ∈ l, pn.2.isPrefixOf u = false) →
      l.foldl (fun u pn =>
        if pn.2.isPrefixOf u then pn.1 ++ ':' :: u.drop pn.2.length else u) u
        = u := by
  intro l
  induction l with
  | nil => intro u _; rfl
  | cons e t ih =>
      intro u h
      have he := h e (List.mem_cons_self _ _)
      simp only [List.foldl_cons, he]
      exact ih u (fun pn hpn => h pn (List.mem_cons_of_mem _ hpn))

theorem foldl_full_skip :
    ∀ (l : List (List Char × List Char)) (u : List Char),
      (∀ pn ∈ l, (pn.1 ++ [':']).isPrefixOf u = false) →
      l.foldl (fun u pn =>
        if (pn.1 ++ [':']).isPrefixOf u then
          pn.2 ++ u.drop (pn.1.length + 1)
        else u) u = u := by
  intro l
  induction l with
  | nil => intro u _; rfl
  | cons e t ih =>
      intro u h
      have he := h e (List.mem_cons_self _ _)
      simp only [List.foldl_cons, he]
      exact ih u (fun pn hpn => h pn (List.mem_cons_of_mem _ hpn))

/-- Round trip through a namespace entry sitting at a known position of the
`NAMESPACES` list, given the non-matching of every other entry at each
stage of both folds. -/
theorem roundtrip_at (pre post : List (List Char × List Char))
    (pn : List Char × List Char) (rest : List Char)
    (hns : NAMESPACES = pre ++ pn :: post)
    (hpre : ∀ qn ∈ pre, qn.2.isPrefixOf (pn.2 ++ rest) = false)
    (hpost : ∀ qn ∈ post, qn.2.isPrefixOf (pn.1 ++ ':' :: rest) = false)
    (hfpre : ∀ qn ∈ pre, (qn.1 ++ [':']).isPrefixOf (pn.1 ++ ':' :: rest) = false)
    (hback : ∀ qn ∈ post, (qn.1 ++ [':']).isPrefixOf (pn.2 ++ rest) = false) :
    full_uri (prefixed_uri (pn.2 ++ rest)) = pn.2 ++ rest := by
  have hstep1 : prefixed_uri (pn.2 ++ rest) = pn.1 ++ ':' :: rest := by
    simp only [prefixed_uri]
    rw [hns, List.foldl_append, foldl_prefixed_skip pre _ hpre, List.foldl_cons]
    have hg : (if pn.2.isPrefixOf (pn.2 ++ rest) then
        pn.1 ++ ':' :: (pn.2 ++ rest).drop pn.2.length else pn.2 ++ rest) =
        pn.1 ++ ':' :: rest := by
      rw [if_pos (isPrefixOf_append_self _ _), List.drop_left]
    rw [hg]
    exact foldl_prefixed_skip post _ hpost
  rw [hstep1]
  simp only [full_uri]
  rw [hns, List.foldl_append, foldl_full_skip pre _ hfpre, List.foldl_cons]
  have hpos : (pn.1 ++ [':']).isPrefixOf (pn.1 ++ ':' :: rest) = true := by
    have h := isPrefixOf_append_self (pn.1 ++ [':']) rest
    simp only [List.append_assoc, List.singleton_append] at h
    exact h
  have hh : (if (pn.1 ++ [':']).isPrefixOf (pn.1 ++ ':' :: rest) then
      pn.2 ++ (pn.1 ++ ':' :: rest).drop (pn.1.length + 1)
      else pn.1 ++ ':' :: rest) = pn.2 ++ rest := by
    rw [if_pos hpos]
    have hsh : pn.1 ++ ':' :: rest = (pn.1 ++ [':']) ++ rest := by simp
    rw [hsh, List.drop_left' (by simp)]
  rw [hh]
  exact foldl_full_skip post _ hback

/-- Claim C10: a URI that starts with exactly one declared namespace URI, and
whose local part does not itself start with a declared prefix and a colon,
survives the `prefixed_uri` / `full_uri` round trip unchanged. -/
theorem claim_C10 (u : List Char)
    (h1 : ∃ pn ∈ NAMESPACES, pn.2.isPrefixOf u = true ∧
      ∀ qn ∈ NAMESPACES, qn ≠ pn → qn.2.isPrefixOf u = false)
    (_h2 : ∀ pn ∈ NAMESPACES, pn.2.isPrefixOf u = true →
      ∀ qn ∈ NAMESPACES, (qn.1 ++ [':']).isPrefixOf (u.drop pn.2.length) = false) :
    full_uri (prefixed_uri u) = u := by
  obtain ⟨pn, hmem, hmatch, -⟩ := h1
  obtain ⟨rest, hu⟩ := List.isPrefixOf_iff_prefix.mp hmatch
  subst hu
  fin_cases hmem
  · exact roundtrip_at [] [ns_rdfs, ns_owl, ns_xsd, ns_dc, ns_skos, ns_cdi, ns_ucmis]
      ns_rdf rest rfl
      (by intro qn hqn; fin_cases hqn)
      (by intro qn hqn; fin_cases hqn <;>
        exact not_isPrefixOf_consColon _ _ _ (by decide) (by decide))
      (by intro qn hqn; fin_cases hqn)
      (by intro qn hqn; fin_cases hqn <;>
        exact not_isPrefixOf_append _ _ _ (by decide) (by decide))
  · exact roundtrip_at [ns_rdf] [ns_owl, ns_xsd, ns_dc, ns_skos, ns_cdi, ns_ucmis]
      ns_rdfs rest rfl
      (by intro qn hqn; fin_cases hqn <;>
        exact not_isPrefixOf_append _ _ _ (by decide) (by decide))
      (by intro qn hqn; fin_cases hqn <;>
        exact not_isPrefixOf_consColon _ _ _ (by decide) (by decide))
      (by intro qn hqn; fin_cases hqn <;>
        exact not_isPrefixOf_consColon _ _ _ (by decide) (by decide))
      (by intro qn hqn; fin_cases hqn <;>
        exact not_isPrefixOf_append _ _ _ (by decide) (by decide))
  · exact roundtrip_at [ns_rdf, ns_rdfs] [ns_xsd, ns_dc, ns_skos, ns_cdi, ns_ucmis]
      ns_owl rest rfl
      (by intro qn hqn; fin_cases hqn <;>
        exact not_isPrefixOf_append _ _ _ (by decide) (by decide))
      (by intro qn hqn; fin_cases hqn <;>
        exact not_isPrefixOf_consColon _ _ _ (by decide) (by decide))
      (by intro qn hqn; fin_cases hqn <;>
        exact not_isPrefixOf_consColon _ _ _ (by decide) (by decide))
      (by intro qn hqn; fin_cases hqn <;>
        exact not_isPrefixOf_append _ _ _ (by decide) (by decide))
  · exact roundtrip_at [ns_rdf, ns_rdfs, ns_owl] [ns_dc, ns_skos, ns_cdi, ns_ucmis]
      ns_xsd rest rfl
      (by intro qn hqn; fin_cases hqn <;>
        exact not_isPrefixOf_append _ _ _ (by decide) (by decide))
      (by intro qn hqn; fin_cases hqn <;>
        exact not_isPrefixOf_consColon _ _ _ (by decide) (by decide))
      (by intro qn hqn; fin_cases hqn <;>
        exact not_isPrefixOf_consColon _ _ _ (by decide) (by decide))
      (by intro qn hqn; fin_cases hqn <;>
        exact not_isPrefixOf_append _ _ _ (by decide) (by decide))
  · exact roundtrip_at [ns_rdf, ns_rdfs, ns_owl, ns_xsd] [ns_skos, ns_cdi, ns_ucmis]
      ns_dc rest rfl
      (by intro qn hqn; fin_cases hqn <;>
        exact not_isPrefixOf_append _ _ _ (by decide) (by decide))
      (by intro qn hqn; fin_cases hqn <;>
        exact not_isPrefixOf_consColon _ _ _ (by decide) (by decide))
      (by intro qn hqn; fin_cases hqn <;>
        exact not_isPrefixOf_consColon _ _ _ (by decide) (by decide))
      (by intro qn hqn; fin_cases hqn <;>
        exact not_isPrefixOf_append _ _ _ (by decide) (by decide))
  · exact roundtrip_at [ns_rdf, ns_rdfs, ns_owl, ns_xsd, ns_dc] [ns_cdi, ns_ucmis]
      ns_skos rest rfl
      (by intro qn hqn; fin_cases hqn <;>
        exact not_isPrefixOf_append _ _ _ (by decide) (by decide))
      (by intro qn hqn; fin_cases hqn <;>
        exact not_isPrefixOf_consColon _ _ _ (by decide) (by decide))
      (by intro qn hqn; fin_cases hqn <;>
        exact not_isPrefixOf_consColon _ _ _ (by decide) (by decide))
      (by intro qn hqn; fin_cases hqn <;>
        exact not_isPrefixOf_append _ _ _ (by decide) (by decide))
  · exact roundtrip_at [ns_rdf, ns_rdfs, ns_owl, ns_xsd, ns_dc, ns_skos] [ns_ucmis]
      ns_cdi rest rfl
      (by intro qn hqn; fin_cases hqn <;>
        exact not_isPrefixOf_append _ _ _ (by decide) (by decide))
      (by intro qn hqn; fin_cases hqn <;>
        exact not_isPrefixOf_consColon _ _ _ (by decide) (by decide))
      (by intro qn hqn; fin_cases hqn <;>
        exact not_isPrefixOf_consColon _ _ _ (by decide) (by decide))
      (by intro qn hqn; fin_cases hqn <;>
        exact not_isPrefixOf_append _ _ _ (by decide) (by decide))
  · exact roundtrip_at [ns_rdf, ns_rdfs, ns_owl, ns_xsd, ns_dc, ns_skos, ns_cdi] []
      ns_ucmis rest rfl
      (by intro qn hqn; fin_cases hqn <;>
        exact not_isPrefixOf_append _ _ _ (by decide) (by decide))
      (by intro qn hqn; fin_cases hqn)
      (by intro qn hqn; fin_cases hqn <;>
        exact not_isPrefixOf_consColon _ _ _ (by decide) (by decide))
      (by intro qn hqn; fin_cases hqn)

theorem claim_C10_witness :
    full_uri (prefixed_uri "http://www.w3.org/2001/XMLSchema#string".toList) =
      "http://www.w3.org/2001/XMLSchema#string".toList :=
  claim_C10 _ (by decide) (by decide)

/-! ## Field emission (`lab/ddicdi_to_sempyro.py`)

`range_to_python_type`, `escape_description`, `generate_field` and the
cardinality lookup `DdiCdiModel.get_resource_attribute_cardinality`.  A
Python exception is an `Except.error` carrying the message; a declared range
is either one prefixed name or a list of prefixed names; an XML-schema
element is reduced to the four pieces the XPath lookup reads. -/

/-- Python's `str.split(sep)` for a one-character separator, over the
character list: `"a:b" ↦ [['a'], ['b']]`, `"" ↦ [[]]`. -/
def splitOnChar (sep : Char) : List Char → List (List Char)
  | [] => [[]]
  | c :: rest =>
      match splitOnChar sep rest with
      | [] => [[]]
      | h :: t => if c = sep then [] :: h :: t else (c :: h) :: t

/-- Python's `str.split(sep)` for a one-character separator. -/
def pySplit (sep : Char) (s : String) : List String :=
  (splitOnChar sep s.toList).map (fun cs => String.mk cs)

/-- Python's `str.replace(tgt, repl)` (left to right, non-overlapping), with
an explicit fuel that the top-level wrapper sets to the string length — one
character is consumed per step, so that fuel never runs out. -/
def replaceFuel (tgt repl : List Char) : Nat → List Char → List Char
  | 0, s => s
  | _ + 1, [] => []
  | fuel + 1, c :: rest =>
      if tgt ≠ [] ∧ tgt.isPrefixOf (c :: rest) then
        repl ++ replaceFuel tgt repl fuel ((c :: rest).drop tgt.length)
      else c :: replaceFuel tgt repl fuel rest

def pyReplace (s tgt repl : String) : String :=
  String.mk (replaceFuel tgt.toList repl.toList s.toList.length s.toList)

/-- Python's `str.count(tgt)` (non-overlapping occurrences), fueled like
`replaceFuel`. -/
def countSubFuel (tgt : List Char) : Nat → List Char → Nat
  | 0, _ => 0
  | _ + 1, [] => 0
  | fuel + 1, c :: rest =>
      if tgt ≠ [] ∧ tgt.isPrefixOf (c :: rest) then
        1 + countSubFuel tgt fuel ((c :: rest).drop tgt.length)
      else countSubFuel tgt fuel rest

def pyCountSub (s tgt : String) : Nat :=
  countSubFuel tgt.toList s.toList.length s.toList

/-- Python's `tgt in s` for a substring test. -/
def pyContainsSub (s tgt : String) : Bool := 0 < pyCountSub s tgt

/-- Python's `s.startswith(pre)`. -/
def pyStartswith (s pre : String) : Bool := pre.toList.isPrefixOf s.toList

/-- A declared `rdfs:range`: either a single prefixed URI string or a Python
list of them. -/
inductive RangeVal where
  | s (v : String)
  | l (vs : List String)
deriving DecidableEq

/-- True on `Except.error`, mirroring "this Python call raised". -/
def exceptFails {α : Type} : Except String α → Bool
  | .error _ => true
  | .ok _ => false

/-- Python tuple unpacking `(a, b) = parts`: raises `ValueError` unless the
list has exactly two elements. -/
def pyUnpack2 (parts : List String) : Except String (String × String) :=
  match parts with
  | [a, b] => .ok (a, b)
  | _ => .error "ValueError: unpack"

/-- The value of an all-digit character list. -/
def digitsVal? (cs : List Char) : Option Nat :=
  if cs ≠ [] ∧ cs.all (fun c => c.isDigit) then
    some (cs.foldl (fun acc c => acc * 10 + (c.toNat - 48)) 0)
  else none

/-- Python's `int(s)` on a decimal string, as an `Option`. -/
def pyToInt? (s : String) : Option Int :=
  match s.toList with
  | '-' :: rest => (digitsVal? rest).map (fun n => -(n : Int))
  | cs => (digitsVal? cs).map (fun n => (n : Int))

/-- Python's `int(x)` on an optional string: `int(None)` raises `TypeError`,
a non-numeric string raises `ValueError`. -/
def pyInt : Option String → Except String Int
  | none => .error "TypeError: int() argument is None"
  | some s =>
      match pyToInt? s with
      | some n => .ok n
      | none => .error ("ValueError: invalid literal for int(): " ++ s)

/-- The single-string branch of `range_to_python_type`: split on `":"`,
unpack into prefix and local name, and map. -/
def range_to_python_type_str (r : String) : Except String String :=
  match pyUnpack2 (pySplit ':' r) with
  | .error e => .error e
  | .ok (pre, rdf_type) =>
      if pre = "xsd" then
        if rdf_type = "string" then .ok "Union[str, LiteralField]"
        else if rdf_type = "integer" then .ok "int"
        else if rdf_type = "boolean" then .ok "bool"
        else if rdf_type = "date" then .ok "Union[date, datetime]"
        else if rdf_type = "dateTime" then .ok "Union[date, datetime]"
        else if rdf_type = "decimal" then .ok "float"
        else if rdf_type = "double" then .ok "float"
        else if rdf_type = "language" then .ok "Union[str, LiteralField]"
        else if rdf_type = "anyURI" then .ok "Union[str, LiteralField]"
        else .error (r ++ ": Unknown XSD type: " ++ rdf_type)
      else if pre = "cdi" then .ok rdf_type
      else .error (r ++ ": Unknown prefix: " ++ pre)

/-- The `[range_to_python_type(r) for r in range]` comprehension: sequential,
the first exception aborts. -/
def mapRangeStrs : List String → Except String (List String)
  | [] => .ok []
  | v :: rest =>
      match range_to_python_type_str v with
      | .error e => .error e
      | .ok x =>
          match mapRangeStrs rest with
          | .error e => .error e
          | .ok xs => .ok (x :: xs)

/-- `range_to_python_type(range)` of `lab/ddicdi_to_sempyro.py`. -/
def range_to_python_type (r : RangeVal) : Except String String :=
  match r with
  | .s v => range_to_python_type_str v
  | .l vs =>
      match vs with
      | [v] => range_to_python_type_str v
      | _ =>
          match mapRangeStrs vs with
          | .error e => .error e
          | .ok ranges =>
              match ranges with
              | [single] => .ok single
              | _ => .ok ("Union[" ++ String.intercalate ", " ranges ++ "]")

/-- The local names the `xsd` branch of `range_to_python_type` recognises. -/
def xsd_primitives : List String :=
  ["string", "integer", "boolean", "date", "dateTime", "decimal", "double",
   "language", "anyURI"]

/-- A prefixed name is well formed when it has exactly one colon. -/
def wf_range_str (s : String) : Bool := (pySplit ':' s).length == 2

def well_formed_range : RangeVal → Bool
  | .s v => wf_range_str v
  | .l vs => vs.all wf_range_str

/-- The claim's failure condition on one prefixed name: an unrecognised
namespace prefix, or the `xsd` prefix with an unknown local name. -/
def bad_range_str (s : String) : Bool :=
  match pySplit ':' s with
  | [pre, loc] =>
      (!(pre == "xsd") && !(pre == "cdi")) ||
        (pre == "xsd" && !(xsd_primitives.contains loc))
  | _ => true

def bad_range : RangeVal → Bool
  | .s v => bad_range_str v
  | .l vs => vs.any bad_range_str

theorem range_str_fails_iff_bad (s : String) (hs : wf_range_str s = true) :
    exceptFails (range_to_python_type_str s) = bad_range_str s := by
  rcases hp : pySplit ':' s with _ | ⟨a, _ | ⟨b, _ | ⟨c, t⟩⟩⟩ <;>
    simp [wf_range_str, hp] at hs
  simp only [range_to_python_type_str, bad_range_str, hp, pyUnpack2]
  by_cases ha : a = "xsd"
  · subst ha
    by_cases hb : b ∈ xsd_primitives
    · fin_cases hb <;> simp [exceptFails, xsd_primitives]
    · simp only [xsd_primitives, List.mem_cons, List.not_mem_nil, or_false,
        not_or] at hb
      obtain ⟨h1, h2, h3, h4, h5, h6, h7, h8, h9⟩ := hb
      simp [exceptFails, xsd_primitives,
        h1, h2, h3, h4, h5, h6, h7, h8, h9]
  · by_cases hc : a = "cdi"
    · subst hc
      simp [exceptFails, ha]
    · simp [exceptFails, ha, hc]

theorem mapRangeStrs_fails (vs : List String)
    (hwf : ∀ v ∈ vs, wf_range_str v = true) :
    exceptFails (mapRangeStrs vs) = vs.any bad_range_str := by
  induction vs with
  | nil => simp [mapRangeStrs, exceptFails]
  | cons v rest ih =>
      have hv := range_str_fails_iff_bad v (hwf v (List.mem_cons_self _ _))
      have hrest := ih (fun x hx => hwf x (List.mem_cons_of_mem _ hx))
      cases hfv : range_to_python_type_str v with
      | error e =>
          rw [hfv] at hv
          simp [mapRangeStrs, hfv, exceptFails, List.any_cons, ← hv]
      | ok x =>
          rw [hfv] at hv
          simp only [exceptFails] at hv
          cases hrec : mapRangeStrs rest with
          | error e =>
              rw [hrec] at hrest
              simp [mapRangeStrs, hfv, hrec, exceptFails,
                List.any_cons, ← hv, ← hrest]
          | ok xs =>
              rw [hrec] at hrest
              simp [mapRangeStrs, hfv, hrec, exceptFails,
                List.any_cons, ← hv, ← hrest]

/-- Claim C8: on well-formed prefixed names, `range_to_python_type` raises if
and only if some declared range has an unrecognised namespace prefix or an
unknown `xsd` local name; in particular every range built from the known
primitives and from `cdi`-prefixed class names maps without error. -/
theorem claim_C8 (r : RangeVal) (hwf : well_formed_range r = true) :
    exceptFails (range_to_python_type r) = bad_range r := by
  cases r with
  | s v =>
      exact range_str_fails_iff_bad v (by simpa [well_formed_range] using hwf)
  | l vs =>
      have hall : ∀ v ∈ vs, wf_range_str v = true := by
        simpa [well_formed_range, List.all_eq_true] using hwf
      match vs with
      | [] => simp [range_to_python_type, mapRangeStrs, exceptFails, bad_range]
      | [v] =>
          simpa [range_to_python_type, bad_range] using
            range_str_fails_iff_bad v (hall v (List.mem_cons_self _ _))
      | v₁ :: v₂ :: t =>
          have hmap := mapRangeStrs_fails (v₁ :: v₂ :: t) hall
          simp only [range_to_python_type, bad_range]
          cases hm : mapRangeStrs (v₁ :: v₂ :: t) with
          | error e =>
              rw [hm] at hmap
              simp [hm, exceptFails, ← hmap]
          | ok ranges =>
              rw [hm] at hmap
              simp only [exceptFails] at hmap
              cases ranges with
              | nil => simp [hm, exceptFails, ← hmap]
              | cons r1 rs =>
                  cases rs with
                  | nil => simp [hm, exceptFails, ← hmap]
                  | cons r2 rs' => simp [hm, exceptFails, ← hmap]

theorem claim_C8_witness :
    exceptFails (range_to_python_type
      (RangeVal.l ["xsd:string", "cdi:InstanceVariable"])) =
      bad_range (RangeVal.l ["xsd:string", "cdi:InstanceVariable"]) :=
  claim_C8 _ (by decide)

/-- Rendering of a Python value inside an f-string: `None` prints as
`"None"`. -/
def pyStr (o : Option String) : String := o.getD "None"

/-- `escape_description` of `lab/ddicdi_to_sempyro.py`: backslash-escape,
quote-escape, triple-quote handling, then choose single- or triple-quoted
rendering.  A falsy description (absent or empty) renders as `""`. -/
def escape_description (description : Option String) : String :=
  match description with
  | none => "\"\""
  | some d =>
      if d = "" then "\"\""
      else
        let d1 := pyReplace d "\\" "\\\\"
        let d2 := pyReplace d1 "\"" "\\\""
        let d3 := if pyContainsSub d2 "\"\"\"" then
            pyReplace d2 "\"\"\"" "\\\"\\\"\\\"" else d2
        if pyContainsSub d3 "\n" ∨ pyCountSub d3 "\\\"" > 3 then
          "\"\"\"" ++ d3 ++ "\"\"\""
        else "\"" ++ d3 ++ "\""

/-- An attribute-cardinality dict: `{}` when the XML-schema lookup found no
element (all fields `none`, `display` included), and the
`minOccurs`/`maxOccurs`/`display` triple otherwise.  The `minOccurs` and
`maxOccurs` XML attributes may themselves be absent (`element.get` returns
`None`). -/
structure Cardinality where
  minOccurs : Option String
  maxOccurs : Option String
  display : Option String
deriving DecidableEq

/-- What the XPath of `get_resource_attribute_cardinality` reads from one
`xs:element` of the XML schema: the id of the enclosing `xs:complexType`, the
element's own id, and its two occurrence attributes. -/
structure XsdElement where
  complexTypeId : String
  elementId : String
  minOccurs : Option String
  maxOccurs : Option String
deriving DecidableEq

set_option linter.unusedVariables false in
/-- `DdiCdiModel.get_resource_attribute_cardinality`: derive the element name
from the attribute URI's local part and the owning complex-type name from its
text before the first hyphen, look both up in the schema, and return `{}`
(everything `none`) when nothing matches.  The `resource_uri` argument is
unused by the source too — the owning type name is derived from the
attribute URI. -/
def get_resource_attribute_cardinality (schema : List XsdElement)
    (resource_uri attribute_uri : String) : Cardinality :=
  let attribute_name := (pySplit ':' attribute_uri).getLastD ""
  let resource_name := (pySplit '-' attribute_name).headD ""
  match schema.filter (fun e =>
      e.complexTypeId = resource_name ++ "XsdType" ∧
        e.elementId = attribute_name) with
  | [] => { minOccurs := none, maxOccurs := none, display := none }
  | e :: _ =>
      { minOccurs := e.minOccurs, maxOccurs := e.maxOccurs,
        display := some (if e.maxOccurs ≠ some "unbounded" then
          pyStr e.minOccurs ++ ".." ++ pyStr e.maxOccurs
          else pyStr e.minOccurs ++ "..*") }

/-- The fields of an attribute/association dict that `generate_field`
reads. -/
structure AttrResource where
  uri : String
  label : Option String
  range : RangeVal
  description : Option String
deriving DecidableEq

def INDENT : String := "    "

/-- Names reserved by Python or Pydantic that `generate_field` suffixes. -/
def reserved_names : List String := ["for", "from", "construct"]

/-- Rendering of a range value inside the comment f-string (a Python list
prints with brackets and quoted elements). -/
def rangeRepr : RangeVal → String
  | .s v => v
  | .l vs =>
      "[" ++ String.intercalate ", " (vs.map (fun v => "\x27" ++ v ++ "\x27"))
        ++ "]"

/-- `generate_field(resource, cardinality)` of `lab/ddicdi_to_sempyro.py`:
emit the comment line, the (possibly renamed) field, the range-derived type
with list/optional wrapping decided by the cardinality, and the Field(...)
block.  Each Python exception surfaces as `Except.error`. -/
def generate_field (resource : AttrResource) (cardinality : Cardinality) :
    Except String String :=
  let code0 := "# " ++ resource.uri ++ " (" ++ pyStr cardinality.display
    ++ ") | " ++ pyStr resource.label ++ " | " ++ rangeRepr resource.range
    ++ "\n"
  let field_name0 := pyStr resource.label
  let field_name := if field_name0 ∈ reserved_names then field_name0 ++ "_"
    else field_name0
  let code1 := code0 ++ field_name ++ ": "
  match range_to_python_type resource.range with
  | .error e => .error e
  | .ok python_type0 =>
      let listWrapped : Except String String :=
        if cardinality.maxOccurs = some "unbounded" then
          .ok ("list[" ++ python_type0 ++ "]")
        else
          match pyInt cardinality.maxOccurs with
          | .error e => .error e
          | .ok n =>
              if n > 1 then .ok ("list[" ++ python_type0 ++ "]")
              else .ok python_type0
      match listWrapped with
      | .error e => .error e
      | .ok python_type1 =>
          let python_type2 := if cardinality.minOccurs = some "0" then
            python_type1 ++ " | None" else python_type1
          let code2 := code1 ++ python_type2 ++ " = Field(\n"
          let code3 := code2 ++ INDENT ++ "alias=\"" ++ pyStr resource.label
            ++ "\",\n"
          let code4 := if cardinality.minOccurs = some "0" then
            code3 ++ INDENT ++ "default=None,\n" else code3
          let code5 := code4 ++ INDENT ++ "description="
            ++ escape_description resource.description ++ ",\n"
          let attribute_name := (pySplit ':' resource.uri).getLastD ""
          let rdfTypeRendered : Except String String :=
            match resource.range with
            | .s v =>
                if pyStartswith v "cdi:" then .ok (pyReplace v "cdi:" "CDI.")
                else if pyStartswith v "xsd:" then .ok ("\"" ++ v ++ "\"")
                else .error ("Unknown RDF type: " ++ v)
            | .l _ => .error "AttributeError: list has no attribute startswith"
          match rdfTypeRendered with
          | .error e => .error e
          | .ok rdf_type =>
              .ok (code5 ++ INDENT ++ "json_schema_extra=\x7b\n"
                ++ INDENT ++ INDENT ++ "\"rdf_term\": URIRef(CDI + \""
                ++ attribute_name ++ "\"),\n"
                ++ INDENT ++ INDENT ++ "\"rdf_type\": " ++ rdf_type ++ "\n"
                ++ INDENT ++ "\x7d,\n" ++ ")\n" ++ "\n\n")

/-- Claim C6 describes the intended behaviour, but the code raises: when the
cardinality lookup returns the empty (unknown) cardinality, `generate_field`
reaches `int(cardinality.get('maxOccurs'))` with `None` and raises a
`TypeError` instead of defaulting to an optional singular field.  This
theorem evaluates both halves of the chain at that failing input. -/
theorem claim_C6 :
    get_resource_attribute_cardinality [] "cdi:InstanceVariable"
        "cdi:InstanceVariable-displayLabel" =
      { minOccurs := none, maxOccurs := none, display := none } ∧
    generate_field
        { uri := "cdi:InstanceVariable-displayLabel",
          label := some "displayLabel",
          range := RangeVal.s "xsd:string", description := none }
        { minOccurs := none, maxOccurs := none, display := none } =
      .error "TypeError: int() argument is None" := by
  constructor
  · rfl
  · rfl

/-! ## Domain-attribute queries (`ddicdi_specification.py`,
`get_resource_domain_attributes`)

The graph-derived inputs (SPARQL queries for attribute lists, per-attribute
properties and transitive superclasses) are abstracted into an `OntModel`
record; the method itself — the dict it builds, the inherited merge, the
tagging — is embedded faithfully on top of it.  A Python dict is an
association list in insertion order; assigning to an existing key updates the
value in place. -/

/-- One value of the attribute dict that `get_resource_domain_attributes`
builds.  `inherited` is `none` when the call does not add the key at all
(`inherited=False`), and `some b` for the tag; likewise `inherited_from` and
`description`. -/
structure DomainAttr where
  uri : String
  label : Option String
  range : Option RangeVal
  cardinality : Cardinality
  inherited : Option Bool
  inherited_from : Option String
  description : Option String
deriving DecidableEq

/-- The ontology-model queries `get_resource_domain_attributes` consumes:
`domainAttrs` is `get_resource_ucmis_domain_attributes` (a SPARQL query),
`attrLabel`/`attrRange`/`attrComment` read `get_resource_properties`, and
`superclasses` is the transitive `get_resource_superclasses`. -/
structure OntModel where
  domainAttrs : String → List String
  attrLabel : String → Option String
  attrRange : String → Option RangeVal
  attrComment : String → Option String
  superclasses : String → List String
  schema : List XsdElement

/-- Assignment `d[k] = v` on an insertion-ordered dict: update in place when
the key exists, append otherwise. -/
def dictInsert {α : Type} (l : List (String × α)) (k : String) (v : α) :
    List (String × α) :=
  if (l.lookup k).isSome then
    l.map (fun kv => if kv.1 = k then (k, v) else kv)
  else l ++ [(k, v)]

/-- The attribute dict entry built for attribute `a` of `resource_uri` in the
body of the per-attribute loop. -/
def domainAttrEntry (m : OntModel) (resource_uri a : String)
    (description inherited : Bool) : DomainAttr :=
  { uri := a, label := m.attrLabel a, range := m.attrRange a,
    cardinality := get_resource_attribute_cardinality m.schema resource_uri a,
    inherited := if inherited then some false else none,
    inherited_from := none,
    description := if description then m.attrComment a else none }

/-- The first loop of `get_resource_domain_attributes`: the resource's own
attributes, in query order. -/
def own_domain_attributes (m : OntModel) (resource_uri : String)
    (description inherited : Bool) : List (String × DomainAttr) :=
  (m.domainAttrs resource_uri).foldl
    (fun acc a =>
      dictInsert acc a (domainAttrEntry m resource_uri a description inherited))
    []

/-- The entry the superclass merge writes for attribute `a` coming from
superclass `sc`: the superclass's own entry, retagged. -/
def inheritedEntry (m : OntModel) (sc a : String) : DomainAttr :=
  { domainAttrEntry m sc a false false with
      inherited := some true, inherited_from := some sc }

/-- `DdiCdiModel.get_resource_domain_attributes`: own attributes first; when
`inherited=True`, every superclass's own attributes are retagged and inserted
afterwards (overwriting same-keyed entries). -/
def get_resource_domain_attributes (m : OntModel) (resource_uri : String)
    (description inherited : Bool) : List (String × DomainAttr) :=
  let attrs := own_domain_attributes m resource_uri description inherited
  if inherited then
    (m.superclasses resource_uri).foldl
      (fun acc sc =>
        (own_domain_attributes m sc false false).foldl
          (fun acc2 kv =>
            dictInsert acc2 kv.2.uri
              { kv.2 with inherited := some true, inherited_from := some sc })
          acc)
      attrs
  else attrs

theorem lookup_map_update {α : Type} (k k' : String) (v : α) (hne : k' ≠ k) :
    ∀ l : List (String × α),
      (l.map (fun kv => if kv.1 = k then (k, v) else kv)).lookup k' =
        l.lookup k' := by
  intro l
  induction l with
  | nil => rfl
  | cons hd t ih =>
      obtain ⟨a, b⟩ := hd
      by_cases hak : a = k
      · subst hak
        have h1 : (k' == a) = false := beq_eq_false_iff_ne.mpr hne
        have hhead : (if ((a, b) : String × α).1 = a then (a, v) else (a, b)) =
            (a, v) := by simp
        simp only [List.map_cons, hhead]
        simp [List.lookup, h1, ih]
      · simp only [List.map_cons, if_neg (show ¬ ((a, b).1 = k) by simpa using hak)]
        cases hbc : (k' == a)
        · simp [List.lookup, hbc, ih]
        · simp [List.lookup, hbc]

theorem lookup_append_single {α : Type} (k k' : String) (v : α) (hne : k' ≠ k) :
    ∀ l : List (String × α), (l ++ [(k, v)]).lookup k' = l.lookup k' := by
  intro l
  induction l with
  | nil => simp [List.lookup, beq_eq_false_iff_ne.mpr hne]
  | cons hd t ih =>
      obtain ⟨a, b⟩ := hd
      cases hbc : (k' == a) <;> simp [List.lookup, hbc, ih]

theorem dictInsert_lookup_other {α : Type} (l : List (String × α))
    (k k' : String) (v : α) (hne : k' ≠ k) :
    (dictInsert l k v).lookup k' = l.lookup k' := by
  rw [dictInsert]
  by_cases hsome : (l.lookup k).isSome
  · rw [if_pos hsome]
    exact lookup_map_update k k' v hne l
  · rw [if_neg hsome]
    exact lookup_append_single k k' v hne l

theorem lookup_map_update_self {α : Type} (k : String) (v : α) :
    ∀ l : List (String × α), (l.lookup k).isSome →
      (l.map (fun kv => if kv.1 = k then (k, v) else kv)).lookup k = some v := by
  intro l
  induction l with
  | nil => intro h; simp at h
  | cons hd t ih =>
      intro h
      obtain ⟨a, b⟩ := hd
      by_cases hak : a = k
      · subst hak
        have hhead : (if ((a, b) : String × α).1 = a then (a, v) else (a, b)) =
            (a, v) := by simp
        simp only [List.map_cons, hhead]
        simp [List.lookup]
      · have hbeq : (k == a) = false := beq_eq_false_iff_ne.mpr (Ne.symm hak)
        simp only [List.lookup, hbeq] at h
        simp only [List.map_cons, if_neg (show ¬ ((a, b).1 = k) by simpa using hak)]
        simp only [List.lookup, hbeq]
        exact ih h

theorem lookup_append_single_self {α : Type} (k : String) (v : α) :
    ∀ l : List (String × α), ¬ (l.lookup k).isSome →
      (l ++ [(k, v)]).lookup k = some v := by
  intro l
  induction l with
  | nil => intro _; simp [List.lookup]
  | cons hd t ih =>
      intro h
      obtain ⟨a, b⟩ := hd
      by_cases hak : a = k
      · subst hak
        simp [List.lookup] at h
      · have hbeq : (k == a) = false := beq_eq_false_iff_ne.mpr (Ne.symm hak)
        simp only [List.lookup, hbeq] at h
        simp only [List.cons_append, List.lookup, hbeq]
        exact ih h

theorem dictInsert_lookup_self {α : Type} (l : List (String × α))
    (k : String) (v : α) : (dictInsert l k v).lookup k = some v := by
  rw [dictInsert]
  by_cases hsome : (l.lookup k).isSome
  · rw [if_pos hsome]
    exact lookup_map_update_self k v l hsome
  · rw [if_neg hsome]
    exact lookup_append_single_self k v l hsome

theorem dictInsert_mem {α : Type} (l : List (String × α)) (k : String)
    (v : α) : ∀ kv ∈ dictInsert l k v, kv ∈ l ∨ kv = (k, v) := by
  intro kv hkv
  rw [dictInsert] at hkv
  by_cases hsome : (l.lookup k).isSome
  · rw [if_pos hsome] at hkv
    obtain ⟨orig, horig, heq⟩ := List.mem_map.1 hkv
    by_cases hk : orig.1 = k
    · right
      rw [← heq, if_pos hk]
    · left
      rw [← heq, if_neg hk]
      exact horig
  · rw [if_neg hsome] at hkv
    rcases List.mem_append.1 hkv with h | h
    · exact Or.inl h
    · exact Or.inr (List.mem_singleton.1 h)

theorem mem_keys_iff_lookup {α : Type} :
    ∀ (l : List (String × α)) (a : String),
      a ∈ l.map Prod.fst ↔ (l.lookup a).isSome := by
  intro l a
  induction l with
  | nil => simp [List.lookup]
  | cons hd t ih =>
      obtain ⟨k, v⟩ := hd
      by_cases hka : k = a
      · subst hka
        simp [List.lookup]
      · have hbeq : (a == k) = false := beq_eq_false_iff_ne.mpr (Ne.symm hka)
        simp [List.lookup, hbeq, ih, Ne.symm hka]

theorem own_fold_lookup (m : OntModel) (rU : String) (d i : Bool) :
    ∀ (as : List String) (acc : List (String × DomainAttr)) (a : String),
      ((as.foldl
          (fun acc x => dictInsert acc x (domainAttrEntry m rU x d i))
          acc).lookup a) =
        if a ∈ as then some (domainAttrEntry m rU a d i) else acc.lookup a := by
  intro as
  induction as with
  | nil => intro acc a; simp
  | cons x xs ih =>
      intro acc a
      simp only [List.foldl_cons]
      rw [ih]
      by_cases hxs : a ∈ xs
      · simp [hxs, List.mem_cons]
      · rw [if_neg hxs]
        by_cases hxa : x = a
        · subst hxa
          rw [dictInsert_lookup_self]
          simp [List.mem_cons]
        · rw [dictInsert_lookup_other _ _ _ _ (Ne.symm hxa)]
          rw [if_neg (by simp [hxs, Ne.symm hxa])]

theorem own_lookup (m : OntModel) (rU : String) (d i : Bool) (a : String) :
    (own_domain_attributes m rU d i).lookup a =
      if a ∈ m.domainAttrs rU then some (domainAttrEntry m rU a d i)
      else none := by
  rw [own_domain_attributes, own_fold_lookup]
  by_cases h : a ∈ m.domainAttrs rU <;> simp [h, List.lookup]

theorem own_entries_shape (m : OntModel) (rU : String) (d i : Bool) :
    ∀ kv ∈ own_domain_attributes m rU d i,
      kv.2.uri = kv.1 ∧ kv.2 = domainAttrEntry m rU kv.1 d i := by
  suffices h : ∀ (as : List String) (acc : List (String × DomainAttr)),
      (∀ kv ∈ acc, kv.2.uri = kv.1 ∧ kv.2 = domainAttrEntry m rU kv.1 d i) →
      ∀ kv ∈ as.foldl
          (fun acc x => dictInsert acc x (domainAttrEntry m rU x d i)) acc,
        kv.2.uri = kv.1 ∧ kv.2 = domainAttrEntry m rU kv.1 d i by
    intro kv hkv
    exact h (m.domainAttrs rU) [] (by simp) kv hkv
  intro as
  induction as with
  | nil => intro acc hacc kv hkv; exact hacc kv hkv
  | cons x xs ih =>
      intro acc hacc kv hkv
      simp only [List.foldl_cons] at hkv
      refine ih _ ?_ kv hkv
      intro kv2 hkv2
      rcases dictInsert_mem _ _ _ kv2 hkv2 with h | h
      · exact hacc kv2 h
      · subst h
        exact ⟨rfl, rfl⟩

theorem merge_inner_lookup (m : OntModel) (sc : String) :
    ∀ (entries : List (String × DomainAttr)),
      (∀ kv ∈ entries,
        kv.2.uri = kv.1 ∧ kv.2 = domainAttrEntry m sc kv.1 false false) →
      ∀ (acc : List (String × DomainAttr)) (a : String),
        ((entries.foldl
            (fun acc2 kv => dictInsert acc2 kv.2.uri
              { kv.2 with inherited := some true, inherited_from := some sc })
            acc).lookup a) =
          if a ∈ entries.map Prod.fst then some (inheritedEntry m sc a)
          else acc.lookup a := by
  intro entries
  induction entries with
  | nil => intro _ acc a; simp
  | cons kv t ih =>
      intro hshape acc a
      obtain ⟨huri, hval⟩ := hshape kv (List.mem_cons_self _ _)
      simp only [List.foldl_cons]
      rw [ih (fun kv2 h2 => hshape kv2 (List.mem_cons_of_mem _ h2))]
      by_cases hat : a ∈ t.map Prod.fst
      · simp [hat]
      · rw [if_neg hat]
        by_cases hka : kv.1 = a
        · subst hka
          rw [huri, dictInsert_lookup_self]
          rw [if_pos (by simp)]
          rw [hval]
          rfl
        · rw [huri, dictInsert_lookup_other _ _ _ _ (Ne.symm hka)]
          rw [if_neg (by simp [hat, Ne.symm hka])]

theorem merge_outer_lookup (m : OntModel) :
    ∀ (scs : List String) (acc : List (String × DomainAttr)) (a : String),
      ((scs.foldl
          (fun acc sc =>
            (own_domain_attributes m sc false false).foldl
              (fun acc2 kv => dictInsert acc2 kv.2.uri
                { kv.2 with inherited := some true, inherited_from := some sc })
              acc)
          acc).lookup a) =
        match (scs.filter (fun sc => a ∈ m.domainAttrs sc)).getLast? with
        | some sc => some (inheritedEntry m sc a)
        | none => acc.lookup a := by
  intro scs
  induction scs with
  | nil => intro acc a; simp
  | cons sc t ih =>
      intro acc a
      simp only [List.foldl_cons]
      rw [ih]
      have hkeys : a ∈ (own_domain_attributes m sc false false).map Prod.fst ↔
          a ∈ m.domainAttrs sc := by
        rw [mem_keys_iff_lookup, own_lookup]
        by_cases h : a ∈ m.domainAttrs sc <;> simp [h]
      have hstep : (((own_domain_attributes m sc false false).foldl
          (fun acc2 kv => dictInsert acc2 kv.2.uri
            { kv.2 with inherited := some true, inherited_from := some sc })
          acc).lookup a) =
          if a ∈ m.domainAttrs sc then some (inheritedEntry m sc a)
          else acc.lookup a := by
        rw [merge_inner_lookup m sc _ (own_entries_shape m sc false false)]
        by_cases h : a ∈ m.domainAttrs sc
        · rw [if_pos (hkeys.2 h), if_pos h]
        · rw [if_neg (fun hm => h (hkeys.1 hm)), if_neg h]
      by_cases hP : a ∈ m.domainAttrs sc
      · have hfilcons : (sc :: t).filter (fun sc => a ∈ m.domainAttrs sc) =
            sc :: t.filter (fun sc => a ∈ m.domainAttrs sc) := by
          rw [List.filter_cons, if_pos (by simpa using hP)]
        rw [hfilcons]
        cases hfil : t.filter (fun sc => a ∈ m.domainAttrs sc) with
        | nil => simp [hstep, hP]
        | cons f fs =>
            rw [List.getLast?_cons_cons]
            cases hgl : (f :: fs).getLast? with
            | none => simp [List.getLast?_eq_none_iff] at hgl
            | some x => rfl
      · have hfilcons : (sc :: t).filter (fun sc => a ∈ m.domainAttrs sc) =
            t.filter (fun sc => a ∈ m.domainAttrs sc) := by
          rw [List.filter_cons, if_neg (by simpa using hP)]
        rw [hfilcons]
        cases hfil : t.filter (fun sc => a ∈ m.domainAttrs sc) with
        | nil => simp [hstep, hP]
        | cons f fs =>
            cases hgl : (f :: fs).getLast? with
            | none => simp [List.getLast?_eq_none_iff] at hgl
            | some x => rfl

/-- Claim C7 fails as stated: in the inherited-attributes query the ancestor
entries are inserted after the own entries, so on a key collision the
*inherited* entry wins, not the own one.  Concretely, with resource
`cdi:Child` owning attribute `cdi:shared-attr` that its superclass
`cdi:Parent` also declares, the returned entry is tagged `inherited=True`. -/
def c7Model : OntModel :=
  { domainAttrs := fun r =>
      if r = "cdi:Child" ∨ r = "cdi:Parent" then ["cdi:shared-attr"] else [],
    attrLabel := fun _ => some "shared",
    attrRange := fun _ => some (RangeVal.s "xsd:string"),
    attrComment := fun _ => none,
    superclasses := fun r => if r = "cdi:Child" then ["cdi:Parent"] else [],
    schema := [] }

theorem claim_C7_counterexample :
    ((get_resource_domain_attributes c7Model "cdi:Child" false true).lookup
        "cdi:shared-attr").map (fun e => e.inherited) = some (some true) ∧
    ((get_resource_domain_attributes c7Model "cdi:Child" false true).lookup
        "cdi:shared-attr").map (fun e => e.inherited) ≠ some (some false) := by
  decide

/-- Claim C7 (amended): when an attribute merged in from an ancestor shares
its key with an own attribute, the ancestor's entry wins because it is
inserted last — the returned map carries the metadata of the last listed
ancestor declaring the attribute, tagged `inherited=true`. -/
theorem claim_C7 (m : OntModel) (r : String) (d : Bool) (a : String)
    (hanc : (m.superclasses r).filter (fun sc => a ∈ m.domainAttrs sc) ≠ []) :
    ∃ sc,
      ((m.superclasses r).filter (fun sc => a ∈ m.domainAttrs sc)).getLast? =
        some sc ∧
      (get_resource_domain_attributes m r d true).lookup a =
        some (inheritedEntry m sc a) := by
  rw [get_resource_domain_attributes]
  simp only [if_true]
  rw [merge_outer_lookup]
  cases hfil : ((m.superclasses r).filter
      (fun sc => a ∈ m.domainAttrs sc)).getLast? with
  | none =>
      exact absurd (List.getLast?_eq_none_iff.1 hfil) hanc
  | some sc =>
      exact ⟨sc, rfl, rfl⟩

theorem claim_C7_witness :
    ∃ sc,
      ((c7Model.superclasses "cdi:Child").filter
        (fun sc => "cdi:shared-attr" ∈ c7Model.domainAttrs sc)).getLast? =
          some sc ∧
      (get_resource_domain_attributes c7Model "cdi:Child" false true).lookup
          "cdi:shared-attr" =
        some (inheritedEntry c7Model sc "cdi:shared-attr") :=
  claim_C7 c7Model "cdi:Child" false "cdi:shared-attr" (by decide)

/-! ## The registry-driven deserializer
(`src/dartfx/ddi/ddicdi/sempyro_deserializer.py`, `SemPyRODeserializer`)

RDF nodes and graphs are triple lists; a Pydantic model class is reduced to
what the deserializer reads off it (its `model_fields` with their `rdf_term`,
list-ness and inner type, plus the required-field set its constructor
enforces); a constructed Pydantic instance is a `PyValue.inst`.  The mutable
fields of the deserializer (`self.instances`, plus a ghost trace of the
successful `python_class(**field_values)` constructions) are threaded as an
explicit state.  Python's recursion limit is an explicit fuel argument:
running out of fuel is `DError.recursionError`, which — unlike
`SemPyRODeserializationError` — is caught by no `except` clause in this
module. -/

/-- An RDF node: `URIRef`, `BNode` or `Literal` (a literal is reduced to its
Python value's string form). -/
inductive RdfNode where
  | uriRef (s : String)
  | bnode (s : String)
  | lit (s : String)
deriving DecidableEq

/-- Python `str(node)`. -/
def nodeStr : RdfNode → String
  | .uriRef s => s
  | .bnode s => s
  | .lit s => s

/-- A triple graph; `graph.objects(s, p)` iterates in this list's order. -/
structure RdfGraph where
  triples : List (RdfNode × String × RdfNode)
deriving DecidableEq

/-- The `rdf:type` predicate (`RDF.type`). -/
def rdfTypePred : String := "http://www.w3.org/1999/02/22-rdf-syntax-ns#type"

/-- `graph.objects(subject, predicate)`. -/
def objectsOf (g : RdfGraph) (s : RdfNode) (p : String) : List RdfNode :=
  (g.triples.filter (fun t => t.1 = s ∧ t.2.1 = p)).map (fun t => t.2.2)

/-- What `_get_inner_type` can find: an enum class (with its member values),
a `BaseModel` subclass, or anything else (plain types behave like the
latter in `_convert_value`, whose two reference branches both recurse). -/
inductive FieldType where
  | primType
  | enumType (values : List String)
  | modelType
deriving DecidableEq

/-- One entry of `model_fields`: the field's name, the `rdf_term` of its
`json_schema_extra` (absent for fields without RDF metadata), the
list-cardinality flag `_is_list_field` computes from the annotation, and the
inner type `_get_inner_type` computes. -/
structure FieldDesc where
  name : String
  rdf_term : Option String
  is_list : Bool
  innerType : FieldType
deriving DecidableEq

/-- A constructed Python value: a literal's Python value, an enum member, a
Pydantic instance, or a list. -/
inductive PyValue where
  | prim (s : String)
  | enumVal (s : String)
  | inst (cls : String) (fields : List (String × PyValue))
  | list (vs : List PyValue)

/-- A registered Pydantic model class: its name, its `model_fields` in order
(inherited fields included), and the field names its constructor requires
(instantiation fails when one is missing — the model of Pydantic
validation). -/
structure ClassDesc where
  name : String
  fields : List FieldDesc
  required : List String
deriving DecidableEq

/-- The deserializer's mutable state: the `self.instances` cache, plus a
ghost trace recording each successful construction's subject (appended
exactly where `python_class(**field_values)` succeeds). -/
structure DState where
  instances : List (String × PyValue)
  constructed : List String

/-- The module's failure modes: `SemPyRODeserializationError` for an
unregistered type or a failed instantiation, and Python's `RecursionError`
for exhausted fuel. -/
inductive DError where
  | noClassFound (types : List String)
  | instantiationFailed (cls : String)
  | recursionError
deriving DecidableEq

/-- The type-resolution loop of `deserialize_subject`: the first declared
type registered in `class_registry` wins.  (The `isinstance` guard is
vacuous: every rdflib node subclasses `str`.) -/
def firstRegistered (reg : List (String × ClassDesc)) :
    List RdfNode → Option ClassDesc
  | [] => none
  | t :: rest =>
      match reg.lookup (nodeStr t) with
      | some c => some c
      | none => firstRegistered reg rest

/-- The conversion `litConvert` applies to a literal: the enum-member match
attempted first, falling back to the raw Python value. -/
def litConvert (fd : FieldDesc) (s : String) : PyValue :=
  match fd.innerType with
  | .enumType vals => if s ∈ vals then .enumVal s else .prim s
  | _ => .prim s

/-- `_convert_value(graph, value, field_info)`, parameterised by the
next-smaller-fuel `deserialize_subject` instance it recurses into.  Both
reference branches of the source call `deserialize_subject` and catch only
`SemPyRODeserializationError` (returning `None`); a `RecursionError`
propagates. -/
def convert_value
    (dsRec : RdfGraph → RdfNode → DState →
      Except DError (Option PyValue) × DState)
    (g : RdfGraph) (value : RdfNode) (fd : FieldDesc) (st : DState) :
    Except DError (Option PyValue) × DState :=
  match value with
  | .lit s => (.ok (some (litConvert fd s)), st)
  | _ =>
      let vstr := nodeStr value
      let enumHit : Option PyValue :=
        match fd.innerType with
        | .enumType vals =>
            if vstr ∈ vals then some (.enumVal vstr) else none
        | _ => none
      match enumHit with
      | some e => (.ok (some e), st)
      | none =>
          if objectsOf g value rdfTypePred ≠ [] then
            match dsRec g value st with
            | (.ok r, st') => (.ok r, st')
            | (.error .recursionError, st') => (.error .recursionError, st')
            | (.error _, st') => (.ok none, st')
          else (.ok (some (.prim vstr)), st)

/-- The `for v in values` loop of the list branch of
`_extract_field_values`: convert each value, skipping the `None` results. -/
def convertList
    (dsRec : RdfGraph → RdfNode → DState →
      Except DError (Option PyValue) × DState)
    (g : RdfGraph) (vs : List RdfNode) (fd : FieldDesc) (st : DState) :
    Except DError (List PyValue) × DState :=
  match vs with
  | [] => (.ok [], st)
  | v :: rest =>
      match convert_value dsRec g v fd st with
      | (.error e, st') => (.error e, st')
      | (.ok c, st') =>
          match convertList dsRec g rest fd st' with
          | (.error e, st'') => (.error e, st'')
          | (.ok cs, st'') =>
              match c with
              | some x => (.ok (x :: cs), st'')
              | none => (.ok cs, st'')

/-- `_extract_field_values`: walk `model_fields` in order; skip fields with
no `rdf_term` and fields with no matching triples; collect the non-`None`
conversions for list fields (omitting the field when none survive); convert
only the first match for scalar fields (omitting the field when it converts
to `None`). -/
def extract_field_values
    (dsRec : RdfGraph → RdfNode → DState →
      Except DError (Option PyValue) × DState)
    (g : RdfGraph) (subject : RdfNode) :
    List FieldDesc → DState → List (String × PyValue) →
      Except DError (List (String × PyValue)) × DState
  | [], st, acc => (.ok acc, st)
  | fd :: rest, st, acc =>
      match fd.rdf_term with
      | none => extract_field_values dsRec g subject rest st acc
      | some term =>
          match objectsOf g subject term with
          | [] => extract_field_values dsRec g subject rest st acc
          | v :: vs =>
              if fd.is_list then
                match convertList dsRec g (v :: vs) fd st with
                | (.error e, st') => (.error e, st')
                | (.ok converted, st') =>
                    match converted with
                    | [] => extract_field_values dsRec g subject rest st' acc
                    | _ => extract_field_values dsRec g subject rest st'
                        (acc ++ [(fd.name, .list converted)])
              else
                match convert_value dsRec g v fd st with
                | (.error e, st') => (.error e, st')
                | (.ok none, st') =>
                    extract_field_values dsRec g subject rest st' acc
                | (.ok (some x), st') =>
                    extract_field_values dsRec g subject rest st'
                      (acc ++ [(fd.name, x)])

/-- `deserialize_subject(graph, subject)`: cache hit short-circuits;
untyped subjects yield `None`; an unregistered type raises naming every
declared type; otherwise extract the fields, instantiate, cache the new
instance under the subject IRI and return it. -/
def deserialize_subject (reg : List (String × ClassDesc)) :
    Nat → RdfGraph → RdfNode → DState →
      Except DError (Option PyValue) × DState
  | 0, _, _, st => (.error .recursionError, st)
  | fuel + 1, g, subject, st =>
      let subject_str := nodeStr subject
      match st.instances.lookup subject_str with
      | some inst => (.ok (some inst), st)
      | none =>
          let rdf_types := objectsOf g subject rdfTypePred
          if rdf_types = [] then (.ok none, st)
          else
            match firstRegistered reg rdf_types with
            | none => (.error (.noClassFound (rdf_types.map nodeStr)), st)
            | some cls =>
                match extract_field_values (deserialize_subject reg fuel)
                    g subject cls.fields st [] with
                | (.error e, st') => (.error e, st')
                | (.ok field_values, st') =>
                    if cls.required.all
                        (fun rq => (field_values.lookup rq).isSome) then
                      let inst := PyValue.inst cls.name field_values
                      (.ok (some inst),
                        { instances :=
                            dictInsert st'.instances subject_str inst,
                          constructed := st'.constructed ++ [subject_str] })
                    else (.error (.instantiationFailed cls.name), st')

/-- The `subjects` set of `deserialize`, as a first-occurrence dedup of the
typed subjects (Python's set-iteration order is unspecified; this model
fixes insertion order). -/
def dedupFirst (l : List RdfNode) : List RdfNode :=
  l.foldl (fun acc x => if x ∈ acc then acc else acc ++ [x]) []

/-- The `root_types is None or str(o) in root_types` filter. -/
def rootMatch (root_types : Option (List String)) (o : RdfNode) : Bool :=
  match root_types with
  | none => true
  | some l => nodeStr o ∈ l

/-- The per-subject loop of `deserialize`: a `SemPyRODeserializationError`
is caught and recorded as a warning (modelled by the failed subject's
string); a `RecursionError` propagates and aborts the batch. -/
def deserialize_subjects (reg : List (String × ClassDesc)) (fuel : Nat)
    (g : RdfGraph) :
    List RdfNode → DState → List PyValue → List String →
      Except DError (List PyValue × List String) × DState
  | [], st, results, warnings => (.ok (results, warnings), st)
  | s :: rest, st, results, warnings =>
      match deserialize_subject reg fuel g s st with
      | (.ok (some i), st') =>
          deserialize_subjects reg fuel g rest st' (results ++ [i]) warnings
      | (.ok none, st') =>
          deserialize_subjects reg fuel g rest st' results warnings
      | (.error .recursionError, st') => (.error .recursionError, st')
      | (.error _, st') =>
          deserialize_subjects reg fuel g rest st' results
            (warnings ++ [nodeStr s])

/-- `deserialize(graph, root_types)`: clear the instance cache, collect the
typed subjects (optionally filtered), and deserialize each with
partial-failure semantics. -/
def deserialize (reg : List (String × ClassDesc)) (fuel : Nat)
    (g : RdfGraph) (root_types : Option (List String)) (st : DState) :
    Except DError (List PyValue × List String) × DState :=
  let st0 : DState := { st with instances := [] }
  let subjects := dedupFirst
    ((g.triples.filter
      (fun t => t.2.1 = rdfTypePred ∧ rootMatch root_types t.2.2)).map
      (fun t => t.1))
  deserialize_subjects reg fuel g subjects st0 [] []

theorem ds_cache_hit (reg : List (String × ClassDesc)) (fuel : Nat)
    (g : RdfGraph) (s : RdfNode) (st : DState) (v : PyValue)
    (h : st.instances.lookup (nodeStr s) = some v) :
    deserialize_subject reg (fuel + 1) g s st = (.ok (some v), st) := by
  simp [deserialize_subject, h]

/-- The `Person` class of the diamond-reference scenario: one scalar literal
field and one scalar object-reference field, nothing required. -/
def personClass : ClassDesc :=
  { name := "Person",
    fields :=
      [{ name := "name", rdf_term := some "ex:name", is_list := false,
         innerType := .primType },
       { name := "friend", rdf_term := some "ex:friend", is_list := false,
         innerType := .modelType }],
    required := [] }

def diamondReg : List (String × ClassDesc) := [("ex:Person", personClass)]

/-- Subjects `ex:a` and `ex:b` both reference `ex:c` (a diamond). -/
def diamondGraph : RdfGraph :=
  { triples :=
      [(.uriRef "ex:a", rdfTypePred, .uriRef "ex:Person"),
       (.uriRef "ex:a", "ex:friend", .uriRef "ex:c"),
       (.uriRef "ex:b", rdfTypePred, .uriRef "ex:Person"),
       (.uriRef "ex:b", "ex:friend", .uriRef "ex:c"),
       (.uriRef "ex:c", rdfTypePred, .uriRef "ex:Person"),
       (.uriRef "ex:c", "ex:name", .lit "Carla")] }

def instC : PyValue := .inst "Person" [("name", .prim "Carla")]

def instA : PyValue := .inst "Person" [("friend", instC)]

def instB : PyValue := .inst "Person" [("friend", instC)]

/-- Claim C3: a subject already deserialized in the session is answered from
the cache — same instance, no state change, nothing constructed — and in
the diamond scenario `ex:c` is constructed exactly once, with both owners
holding that one instance. -/
theorem claim_C3 :
    (∀ (reg : List (String × ClassDesc)) (fuel : Nat) (g : RdfGraph)
        (s : RdfNode) (st : DState) (v : PyValue),
      st.instances.lookup (nodeStr s) = some v →
      deserialize_subject reg (fuel + 1) g s st = (.ok (some v), st)) ∧
    (deserialize diamondReg 10 diamondGraph none ⟨[], []⟩).1 =
      .ok ([instA, instB, instC], []) ∧
    (deserialize diamondReg 10 diamondGraph none ⟨[], []⟩).2.constructed =
      ["ex:c", "ex:a", "ex:b"] := by
  refine ⟨fun reg fuel g s st v h => ds_cache_hit reg fuel g s st v h, ?_, ?_⟩
  · rfl
  · rfl

theorem claim_C3_witness :
    deserialize_subject diamondReg 5 diamondGraph (.uriRef "ex:c")
        ⟨[("ex:c", instC)], ["ex:c"]⟩ =
      (.ok (some instC), ⟨[("ex:c", instC)], ["ex:c"]⟩) :=
  claim_C3.1 diamondReg 4 diamondGraph (.uriRef "ex:c")
    ⟨[("ex:c", instC)], ["ex:c"]⟩ instC rfl

/-- The simple class of the partial-batch scenario. -/
def tClass : ClassDesc :=
  { name := "T",
    fields := [{ name := "name", rdf_term := some "ex:name",
                 is_list := false, innerType := .primType }],
    required := [] }

def c4Reg : List (String × ClassDesc) := [("ex:T", tClass)]

/-- Three subjects of the registered type `ex:T` plus one subject whose two
declared types are both unregistered. -/
def c4Graph : RdfGraph :=
  { triples :=
      [(.uriRef "ex:s1", rdfTypePred, .uriRef "ex:T"),
       (.uriRef "ex:s1", "ex:name", .lit "Alice"),
       (.uriRef "ex:s2", rdfTypePred, .uriRef "ex:T"),
       (.uriRef "ex:s2", "ex:name", .lit "Bob"),
       (.uriRef "ex:s3", rdfTypePred, .uriRef "ex:T"),
       (.uriRef "ex:s3", "ex:name", .lit "Carol"),
       (.uriRef "ex:s4", rdfTypePred, .uriRef "ex:Bad1"),
       (.uriRef "ex:s4", rdfTypePred, .uriRef "ex:Bad2")] }

/-- Claim C4: the batch call returns exactly the three valid instances and
records exactly one warning (for `ex:s4`), while the single-subject call on
`ex:s4` raises the unregistered-type error naming both declared types. -/
theorem claim_C4 :
    (deserialize c4Reg 10 c4Graph none ⟨[], []⟩).1 =
      .ok ([.inst "T" [("name", .prim "Alice")],
            .inst "T" [("name", .prim "Bob")],
            .inst "T" [("name", .prim "Carol")]], ["ex:s4"]) ∧
    (deserialize_subject c4Reg 10 c4Graph (.uriRef "ex:s4") ⟨[], []⟩).1 =
      .error (.noClassFound ["ex:Bad1", "ex:Bad2"]) := by
  exact ⟨rfl, rfl⟩

/-- The list-field class of the C5 scenario. -/
def lClass : ClassDesc :=
  { name := "L",
    fields := [{ name := "items", rdf_term := some "ex:item",
                 is_list := true, innerType := .modelType }],
    required := [] }

def c5Reg : List (String × ClassDesc) := [("ex:L", lClass)]

/-- `ex:s1` has three `ex:item` triples, one of which references an object
of an unregistered type. -/
def c5Graph : RdfGraph :=
  { triples :=
      [(.uriRef "ex:s1", rdfTypePred, .uriRef "ex:L"),
       (.uriRef "ex:s1", "ex:item", .lit "x"),
       (.uriRef "ex:s1", "ex:item", .uriRef "ex:badobj"),
       (.uriRef "ex:s1", "ex:item", .lit "y"),
       (.uriRef "ex:badobj", rdfTypePred, .uriRef "ex:Unknown")] }

/-- Claim C5 fails as stated: `ex:s1` has three matching triples for the
list field, yet the resulting list has two elements — the value whose
nested deserialization fails converts to `None` and is silently dropped. -/
theorem claim_C5_counterexample :
    (objectsOf c5Graph (.uriRef "ex:s1") "ex:item").length = 3 ∧
    (deserialize_subject c5Reg 10 c5Graph (.uriRef "ex:s1") ⟨[], []⟩).1 =
      .ok (some (.inst "L" [("items", .list [.prim "x", .prim "y"])])) := by
  exact ⟨rfl, rfl⟩

theorem convert_value_lit
    (dsRec : RdfGraph → RdfNode → DState →
      Except DError (Option PyValue) × DState)
    (g : RdfGraph) (s : String) (fd : FieldDesc) (st : DState) :
    convert_value dsRec g (.lit s) fd st = (.ok (some (litConvert fd s)), st) := rfl

theorem convertList_lits
    (dsRec : RdfGraph → RdfNode → DState →
      Except DError (Option PyValue) × DState)
    (g : RdfGraph) (fd : FieldDesc) :
    ∀ (lits : List String) (st : DState),
      convertList dsRec g (lits.map RdfNode.lit) fd st =
        (.ok (lits.map (litConvert fd)), st) := by
  intro lits
  induction lits with
  | nil => intro st; rfl
  | cons s rest ih =>
      intro st
      simp only [List.map_cons, convertList, convert_value_lit, ih]

/-- Claim C5 (amended): a field with no matching triples is omitted; a
list-cardinality field collects one element per matching value whose
conversion succeeds, in graph order — in particular literal values always
convert, so n literal matches give exactly n elements; a scalar-cardinality
field converts only the first matching value, and every further match is
silently dropped. -/
theorem claim_C5 :
    (∀ (dsRec : RdfGraph → RdfNode → DState →
          Except DError (Option PyValue) × DState)
        (g : RdfGraph) (subject : RdfNode) (fd : FieldDesc)
        (fds : List FieldDesc) (st : DState)
        (acc : List (String × PyValue)) (term : String),
      fd.rdf_term = some term → objectsOf g subject term = [] →
      extract_field_values dsRec g subject (fd :: fds) st acc =
        extract_field_values dsRec g subject fds st acc) ∧
    (∀ (dsRec : RdfGraph → RdfNode → DState →
          Except DError (Option PyValue) × DState)
        (g : RdfGraph) (subject : RdfNode) (fd : FieldDesc) (st : DState)
        (acc : List (String × PyValue)) (lits : List String) (term : String),
      fd.rdf_term = some term → fd.is_list = true →
      objectsOf g subject term = lits.map RdfNode.lit → lits ≠ [] →
      extract_field_values dsRec g subject [fd] st acc =
        (.ok (acc ++ [(fd.name, .list (lits.map (litConvert fd)))]), st)) ∧
    (∀ (dsRec : RdfGraph → RdfNode → DState →
          Except DError (Option PyValue) × DState)
        (g : RdfGraph) (subject : RdfNode) (fd : FieldDesc) (st : DState)
        (acc : List (String × PyValue)) (s : String) (vs : List RdfNode)
        (term : String),
      fd.rdf_term = some term → fd.is_list = false →
      objectsOf g subject term = .lit s :: vs →
      extract_field_values dsRec g subject [fd] st acc =
        (.ok (acc ++ [(fd.name, litConvert fd s)]), st)) := by
  refine ⟨?_, ?_, ?_⟩
  · intro dsRec g subject fd fds st acc term hterm hobj
    simp [extract_field_values, hterm, hobj]
  · intro dsRec g subject fd st acc lits term hterm hlist hobj hne
    cases lits with
    | nil => exact absurd rfl hne
    | cons l0 lrest =>
        simp only [List.map_cons] at hobj
        simp only [extract_field_values, hterm, hobj, hlist, if_true]
        have hcl := convertList_lits dsRec g fd (l0 :: lrest) st
        simp only [List.map_cons] at hcl
        rw [hcl]
        simp [extract_field_values]
  · intro dsRec g subject fd st acc s vs term hterm hscal hobj
    simp [extract_field_values, hterm, hobj, hscal, convert_value_lit]

/-- A small graph whose subject has three literal-valued matches for a
list-cardinality field, for instantiating the amended C5. -/
def c5LitGraph : RdfGraph :=
  { triples :=
      [(.uriRef "ex:s1", "ex:tag", .lit "p"),
       (.uriRef "ex:s1", "ex:tag", .lit "q"),
       (.uriRef "ex:s1", "ex:tag", .lit "r")] }

def tagsField : FieldDesc :=
  { name := "tags", rdf_term := some "ex:tag", is_list := true,
    innerType := .primType }

theorem claim_C5_witness :
    extract_field_values (deserialize_subject c5Reg 5) c5LitGraph
        (.uriRef "ex:s1") [tagsField] ⟨[], []⟩ [] =
      (.ok [("tags", .list [.prim "p", .prim "q", .prim "r"])], ⟨[], []⟩) :=
  claim_C5.2.1 (deserialize_subject c5Reg 5) c5LitGraph (.uriRef "ex:s1")
    tagsField ⟨[], []⟩ [] ["p", "q", "r"] "ex:tag" rfl rfl rfl
    (by simp)

/-- The instance the C9 scenario caches. -/
def instS : PyValue := .inst "T" [("name", .prim "Ann")]

def c9Graph : RdfGraph :=
  { triples :=
      [(.uriRef "ex:s", rdfTypePred, .uriRef "ex:T"),
       (.uriRef "ex:s", "ex:name", .lit "Ann")] }

def emptyGraph : RdfGraph := { triples := [] }

/-- Claim C9 fails as stated: the cache is cleared only at the start of a
`deserialize` (batch) call, never discarded at call end, and
`deserialize_subject` performs no clearing at all — so a later direct
`deserialize_subject` call on the same mapper returns an instance cached by
an earlier call, even against a graph that says nothing about the
subject. -/
theorem claim_C9_counterexample :
    deserialize_subject c4Reg 10 c9Graph (.uriRef "ex:s") ⟨[], []⟩ =
      (.ok (some instS), ⟨[("ex:s", instS)], ["ex:s"]⟩) ∧
    (deserialize_subject c4Reg 10 emptyGraph (.uriRef "ex:s")
        ⟨[("ex:s", instS)], ["ex:s"]⟩).1 = .ok (some instS) ∧
    (deserialize_subject c4Reg 10 emptyGraph (.uriRef "ex:s") ⟨[], []⟩).1 =
      .ok none := by
  exact ⟨rfl, rfl, rfl⟩

/-- Claim C9 (amended): `deserialize` clears the session cache at call
start, so a later batch call never observes an instance cached earlier; but
`deserialize_subject` does not clear, so a later direct single-subject call
on the same mapper returns the instance cached by an earlier call. -/
theorem claim_C9 :
    (∀ (reg : List (String × ClassDesc)) (fuel : Nat) (g : RdfGraph)
        (rt : Option (List String)) (st : DState),
      deserialize reg fuel g rt st =
        deserialize reg fuel g rt ⟨[], st.constructed⟩) ∧
    (∀ (reg : List (String × ClassDesc)) (fuel : Nat) (g : RdfGraph)
        (s : RdfNode) (st : DState) (v : PyValue),
      st.instances.lookup (nodeStr s) = some v →
      (deserialize_subject reg (fuel + 1) g s st).1 = .ok (some v)) := by
  constructor
  · intro reg fuel g rt st
    rfl
  · intro reg fuel g s st v h
    rw [ds_cache_hit reg fuel g s st v h]

theorem claim_C9_witness :
    (deserialize_subject c4Reg 5 emptyGraph (.uriRef "ex:s")
        ⟨[("ex:s", instS)], ["ex:s"]⟩).1 = .ok (some instS) :=
  claim_C9.2 c4Reg 4 emptyGraph (.uriRef "ex:s")
    ⟨[("ex:s", instS)], ["ex:s"]⟩ instS rfl

end DdiToolkit
